import Mathlib

/-! SimpleBlockChain: a shallow embedding of `src/main.js`.

The file embeds the two classes of `src/main.js` (`Block` and `BlockChain`) as Lean
definitions and proves or refutes properties of them.

Modelling conventions.

* JavaScript objects are mutable references.  Two embeddings of the chain are given.  In the
  first (`BlockChain`) every operation that mutates `this` is a function returning the
  updated value and the chain is a list of block values; it is exact as long as no block
  object stands at two positions of one chain.  In the second (`Store`) the chain is a list
  of references into a list of block objects, so that one object may stand at several
  positions; the first is the second seen position by position (`Store.view`,
  `Store.isChainValid_view`, `Store.addBlock_view`).
* `index`, `nonce` and `difficulty` are non-negative integers held by JavaScript numbers.
  `this.nonce++` is `increment`: exact below `2 ^ 53`, without effect at `2 ^ 53`.  The decimal
  rendering is exact below `10 ^ 21`.  `difficulty` stays below the largest array length, so
  that `Array(difficulty + 1)` does not throw.
* `timestamp`, `previoushash` and `hash` are well-formed JavaScript strings, as in every call
  of the source.  `data` is a string in `Block`; `PayloadBlock` takes any payload, with what
  `JSON.stringify` does on it as a parameter.
* `SHA256(...).toString()` of the `crypto-js` library is a parameter `sha : String → String`
  of every operation; `sha256` below is the real function, used on concrete inputs.
* A `while` loop that may run forever takes a `fuel` argument bounding the number of
  iterations; `Outcome.outOfFuel` says that the bound was hit.
* `console.log` output is not modelled.
-/

namespace SimpleBlockChain

/-! ## SHA-256 (FIPS 180-4), hexadecimal output, over the UTF-8 encoding of the message -/

namespace SHA256

/-- Rotate a 32-bit word right by `n` bits. -/
def rotr (x n : Nat) : Nat := ((x >>> n) ||| (x <<< (32 - n))) % 4294967296

/-- Round constants of SHA-256. -/
def K : List Nat := [
  0x428a2f98, 0x71374491, 0xb5c0fbcf, 0xe9b5dba5, 0x3956c25b, 0x59f111f1, 0x923f82a4, 0xab1c5ed5,
  0xd807aa98, 0x12835b01, 0x243185be, 0x550c7dc3, 0x72be5d74, 0x80deb1fe, 0x9bdc06a7, 0xc19bf174,
  0xe49b69c1, 0xefbe4786, 0x0fc19dc6, 0x240ca1cc, 0x2de92c6f, 0x4a7484aa, 0x5cb0a9dc, 0x76f988da,
  0x983e5152, 0xa831c66d, 0xb00327c8, 0xbf597fc7, 0xc6e00bf3, 0xd5a79147, 0x06ca6351, 0x14292967,
  0x27b70a85, 0x2e1b2138, 0x4d2c6dfc, 0x53380d13, 0x650a7354, 0x766a0abb, 0x81c2c92e, 0x92722c85,
  0xa2bfe8a1, 0xa81a664b, 0xc24b8b70, 0xc76c51a3, 0xd192e819, 0xd6990624, 0xf40e3585, 0x106aa070,
  0x19a4c116, 0x1e376c08, 0x2748774c, 0x34b0bcb5, 0x391c0cb3, 0x4ed8aa4a, 0x5b9cca4f, 0x682e6ff3,
  0x748f82ee, 0x78a5636f, 0x84c87814, 0x8cc70208, 0x90befffa, 0xa4506ceb, 0xbef9a3f7, 0xc67178f2]

/-- The eight working variables of the compression function. -/
structure Vars where
  a : Nat
  b : Nat
  c : Nat
  d : Nat
  e : Nat
  f : Nat
  g : Nat
  h : Nat

/-- Initial hash value of SHA-256. -/
def H0 : Vars :=
  ⟨0x6a09e667, 0xbb67ae85, 0x3c6ef372, 0xa54ff53a, 0x510e527f, 0x9b05688c, 0x1f83d9ab, 0x5be0cd19⟩

/-- The schedule word sixteen places after the head of the window `w`. -/
def nextW (w : List Nat) : Nat :=
  let w0 := w.getD 0 0
  let w1 := w.getD 1 0
  let w9 := w.getD 9 0
  let w14 := w.getD 14 0
  let s0 := rotr w1 7 ^^^ rotr w1 18 ^^^ (w1 >>> 3)
  let s1 := rotr w14 17 ^^^ rotr w14 19 ^^^ (w14 >>> 10)
  (w0 + s0 + w9 + s1) % 4294967296

/-- One round: the working variables and the sliding window of sixteen schedule words. -/
def round (sw : Vars × List Nat) (k : Nat) : Vars × List Nat :=
  let s := sw.1
  let w := sw.2
  let S1 := rotr s.e 6 ^^^ rotr s.e 11 ^^^ rotr s.e 25
  let ch := (s.e &&& s.f) ^^^ ((4294967295 - s.e) &&& s.g)
  let t1 := (s.h + S1 + ch + k + w.getD 0 0) % 4294967296
  let S0 := rotr s.a 2 ^^^ rotr s.a 13 ^^^ rotr s.a 22
  let maj := (s.a &&& s.b) ^^^ (s.a &&& s.c) ^^^ (s.b &&& s.c)
  let t2 := (S0 + maj) % 4294967296
  (⟨(t1 + t2) % 4294967296, s.a, s.b, s.c, (s.d + t1) % 4294967296, s.e, s.f, s.g⟩,
    w.drop 1 ++ [nextW w])

/-- Compression of one 512-bit block, given as sixteen words. -/
def compress (s : Vars) (w : List Nat) : Vars :=
  let r := (K.foldl round (s, w)).1
  ⟨(s.a + r.a) % 4294967296, (s.b + r.b) % 4294967296, (s.c + r.c) % 4294967296,
   (s.d + r.d) % 4294967296, (s.e + r.e) % 4294967296, (s.f + r.f) % 4294967296,
   (s.g + r.g) % 4294967296, (s.h + r.h) % 4294967296⟩

/-- UTF-8 encoding of one character. -/
def utf8 (c : Char) : List Nat :=
  let n := c.toNat
  if n < 0x80 then [n]
  else if n < 0x800 then [0xC0 + n / 64, 0x80 + n % 64]
  else if n < 0x10000 then [0xE0 + n / 4096, 0x80 + (n / 64) % 64, 0x80 + n % 64]
  else [0xF0 + n / 262144, 0x80 + (n / 4096) % 64, 0x80 + (n / 64) % 64, 0x80 + n % 64]

/-- Message padding: a one bit, zeros, and the bit length as a 64-bit big-endian number. -/
def pad (bytes : List Nat) : List Nat :=
  let l := bytes.length
  let z := (119 - l % 64) % 64
  let bits := 8 * l
  bytes ++ [0x80] ++ List.replicate z 0 ++
    [bits / 2^56 % 256, bits / 2^48 % 256, bits / 2^40 % 256, bits / 2^32 % 256,
     bits / 2^24 % 256, bits / 2^16 % 256, bits / 2^8 % 256, bits % 256]

/-- The first `n` big-endian 32-bit words of a byte list. -/
def words : Nat → List Nat → List Nat
  | 0, _ => []
  | n + 1, b0 :: b1 :: b2 :: b3 :: rest =>
    (((b0 * 256 + b1) * 256 + b2) * 256 + b3) :: words n rest
  | _ + 1, _ => []

/-- Compress `n` consecutive blocks of sixteen words. -/
def blocks : Nat → Vars → List Nat → Vars
  | 0, s, _ => s
  | n + 1, s, ws => blocks n (compress s (ws.take 16)) (ws.drop 16)

/-- Lower-case hexadecimal digit. -/
def hexDigit (n : Nat) : Char := "0123456789abcdef".data.getD n '0'

/-- Eight hexadecimal digits of a 32-bit word. -/
def hex32 (w : Nat) : List Char :=
  [hexDigit (w / 268435456 % 16), hexDigit (w / 16777216 % 16), hexDigit (w / 1048576 % 16),
   hexDigit (w / 65536 % 16), hexDigit (w / 4096 % 16), hexDigit (w / 256 % 16),
   hexDigit (w / 16 % 16), hexDigit (w % 16)]

end SHA256

/-- The function `s ↦ SHA256(s).toString()` of `crypto-js`: the SHA-256 digest of the UTF-8
encoding of `s`, as 64 lower-case hexadecimal digits. -/
def sha256 (msg : String) : String :=
  let p := SHA256.pad (msg.data.flatMap SHA256.utf8)
  let ws := SHA256.words (p.length / 4) p
  let s := SHA256.blocks (ws.length / 16) SHA256.H0 ws
  ⟨SHA256.hex32 s.a ++ SHA256.hex32 s.b ++ SHA256.hex32 s.c ++ SHA256.hex32 s.d ++
    SHA256.hex32 s.e ++ SHA256.hex32 s.f ++ SHA256.hex32 s.g ++ SHA256.hex32 s.h⟩

/-! ## JavaScript string helpers -/

/-- The escape of one character in `JSON.stringify` of a string (QuoteJSONString). -/
def quoteJSONChar (c : Char) : List Char :=
  let n := c.toNat
  let bs := Char.ofNat 92
  if n = 34 ∨ n = 92 then [bs, c]
  else if n = 8 then [bs, 'b']
  else if n = 9 then [bs, 't']
  else if n = 10 then [bs, 'n']
  else if n = 12 then [bs, 'f']
  else if n = 13 then [bs, 'r']
  else if n < 32 then [bs, 'u', '0', '0', SHA256.hexDigit (n / 16), SHA256.hexDigit (n % 16)]
  else [c]

/-- The value of `JSON.stringify(s)` for a string `s`. -/
def stringify (s : String) : String :=
  ⟨Char.ofNat 34 :: (s.data.flatMap quoteJSONChar ++ [Char.ofNat 34])⟩

/-- The value of `s.substring(0, n)`. -/
def substring0 (s : String) (n : Nat) : String := ⟨s.data.take n⟩

/-- The value of `Array(n + 1).join("0")`: the string of `n` zero characters. -/
def zeros (n : Nat) : String := ⟨List.replicate n '0'⟩

/-- The number a variable holds after `++`, for a variable holding the non-negative integer
`n`: `n + 1` rounded to a double (to nearest, ties to even).  Below `2 ^ 53` this is `n + 1`;
at `2 ^ 53` it is `2 ^ 53` again. -/
def increment (n : Nat) : Nat :=
  if n < 9007199254740992 then n + 1
  else if n < 18014398509481984 ∧ n / 2 % 2 = 1 then n + 2
  else n

/-- How `this.nonce` is rendered by string concatenation; `none` is `undefined`, the value
of the property before the constructor assigns it. -/
def nonceString : Option Nat → String
  | none => "undefined"
  | some n => toString n

/-! ## class Block -/

/-- A block object (lines 11-18: the six properties the constructor assigns). -/
structure Block where
  index : Nat
  timestamp : String
  data : String
  previoushash : String
  hash : String
  nonce : Nat
  deriving DecidableEq, Repr

/-- The string handed to `SHA256` in `calculateHash` (lines 25-27):
`this.index + this.previoushash + this.timestamp + JSON.stringify(this.data) + this.nonce`. -/
def hashInput (index : Nat) (previoushash timestamp data : String) (nonce : Option Nat) :
    String :=
  toString index ++ previoushash ++ timestamp ++ stringify data ++ nonceString nonce

/-- The method `calculateHash()` (lines 24-29) on a constructed block. -/
def Block.calculateHash (sha : String → String) (b : Block) : String :=
  sha (hashInput b.index b.previoushash b.timestamp b.data (some b.nonce))

/-- The constructor `new Block(index, timestamp, data, previoushash)` (lines 11-18).  The
assignment `this.hash = this.calculateHash()` of line 16 runs before `this.nonce = 0` of
line 17, so the digest is taken while `this.nonce` is `undefined`.  The default value of
`previoushash` is the empty string. -/
def Block.new (sha : String → String) (index : Nat) (timestamp data previoushash : String) :
    Block :=
  { index := index
    timestamp := timestamp
    data := data
    previoushash := previoushash
    hash := sha (hashInput index previoushash timestamp data none)
    nonce := 0 }

/-- How a call ends: it returns a value, it throws a `TypeError`, or the iteration bound
of a loop was reached before the loop ended. -/
inductive Outcome (α : Type) where
  | returns (a : α)
  | typeError
  | outOfFuel
  deriving DecidableEq, Repr

/-- The method `mineBlock(difficulty)` (lines 36-42).  The result is the value the call
returns, always `undefined` (`none`) since the body has no `return`, and the block after
the mutation.  `fuel` bounds the number of iterations of the `while` loop. -/
def Block.mineBlock (sha : String → String) (difficulty : Nat) :
    Nat → Block → Outcome (Option String × Block)
  | 0, b =>
    if substring0 b.hash difficulty ≠ zeros difficulty then .outOfFuel
    else .returns (none, b)
  | fuel + 1, b =>
    if substring0 b.hash difficulty ≠ zeros difficulty then
      let b1 := { b with nonce := increment b.nonce }
      Block.mineBlock sha difficulty fuel { b1 with hash := b1.calculateHash sha }
    else .returns (none, b)

/-! ## class BlockChain -/

/-- A chain object (lines 48-52): the array `chain` and the number `difficulty`. -/
structure BlockChain where
  chain : List Block
  difficulty : Nat
  deriving DecidableEq, Repr

/-- The method `createGenesisBlock()` (lines 56-58). -/
def createGenesisBlock (sha : String → String) : Block :=
  Block.new sha 0 "01/01/2018" "Genesis" "0"

/-- The constructor `new BlockChain()` (lines 48-52). -/
def BlockChain.new (sha : String → String) : BlockChain :=
  { chain := [createGenesisBlock sha], difficulty := 3 }

/-- The method `getLatestBlock()` (lines 62-64): `this.chain[this.chain.length - 1]`, which
is `undefined` (`none`) on an empty array. -/
def BlockChain.getLatestBlock (c : BlockChain) : Option Block :=
  c.chain[c.chain.length - 1]?

/-- The method `addBlock(newBlock)` (lines 69-73).  Reading `.hash` of `undefined` throws a
`TypeError`. -/
def BlockChain.addBlock (sha : String → String) (fuel : Nat) (c : BlockChain)
    (newBlock : Block) : Outcome BlockChain :=
  match c.getLatestBlock with
  | none => .typeError
  | some latest =>
    match Block.mineBlock sha c.difficulty fuel { newBlock with previoushash := latest.hash } with
    | .returns (_, mined) => .returns { c with chain := c.chain ++ [mined] }
    | .typeError => .typeError
    | .outOfFuel => .outOfFuel

/-- The body of the `for` loop of `isChainValid` (lines 79-100) from position `i` on:
`previous` is `chain[i - 1]` as it is stored when the iteration starts, the list is
`chain[i], chain[i + 1], ...`.  The result is the returned boolean and the blocks from
position `i` on after the call. -/
def validateFrom (sha : String → String) (difficulty fuel : Nat) :
    Block → List Block → Outcome (Bool × List Block)
  | _, [] => .returns (true, [])
  | previous, current :: rest =>
    match Block.mineBlock sha difficulty fuel current with
    | .returns (currM, current) =>
      if currM ≠ none ∧ some current.hash ≠ currM then .returns (false, current :: rest)
      else if current.previoushash ≠ previous.hash then .returns (false, current :: rest)
      else
        match validateFrom sha difficulty fuel current rest with
        | .returns (r, rest1) => .returns (r, current :: rest1)
        | .typeError => .typeError
        | .outOfFuel => .outOfFuel
    | .typeError => .typeError
    | .outOfFuel => .outOfFuel

/-- The method `isChainValid()` (lines 78-102): the returned boolean and the chain object
after the call.  The loop starts at position 1, so `chain[0]` is never mined. -/
def BlockChain.isChainValid (sha : String → String) (fuel : Nat) (c : BlockChain) :
    Outcome (Bool × BlockChain) :=
  match c.chain with
  | [] => .returns (true, c)
  | first :: rest =>
    match validateFrom sha c.difficulty fuel first rest with
    | .returns (r, rest1) => .returns (r, { c with chain := first :: rest1 })
    | .typeError => .typeError
    | .outOfFuel => .outOfFuel

/-! ## Mutations made by the caller (lines 113 and 115 of the driver) -/

/-- Apply `f` to the element at position `i` of a list, if there is one. -/
def modifyAt (f : Block → Block) : Nat → List Block → List Block
  | _, [] => []
  | 0, b :: bs => f b :: bs
  | i + 1, b :: bs => b :: modifyAt f i bs

/-- The assignment `block.data = payload` (line 113). -/
def Block.setData (payload : String) (b : Block) : Block := { b with data := payload }

/-- The assignment `block.hash = block.calculateHash()` (line 115). -/
def Block.rehash (sha : String → String) (b : Block) : Block :=
  { b with hash := b.calculateHash sha }

/-- The assignment `chain.chain[i].data = payload`. -/
def BlockChain.setData (c : BlockChain) (i : Nat) (payload : String) : BlockChain :=
  { c with chain := modifyAt (Block.setData payload) i c.chain }

/-! ## Specification vocabulary -/

/-- The stored hash of `b` begins with `d` zero characters: the `while` condition of
`mineBlock(d)` is false. -/
def Block.Mined (d : Nat) (b : Block) : Prop := substring0 b.hash d = zeros d

instance (d : Nat) (b : Block) : Decidable (b.Mined d) := by
  unfold Block.Mined; infer_instance

/-- Every block of the list records the hash of the block before it, `previous` being the
block before the first one. -/
def linkedFrom : Block → List Block → Bool
  | _, [] => true
  | previous, current :: rest =>
    decide (current.previoushash = previous.hash) && linkedFrom current rest

/-- The chain states the public interface can produce: a new chain, `addBlock` on a block
that was just constructed, and `isChainValid`, each call having returned. -/
inductive Reachable (sha : String → String) : BlockChain → Prop where
  | new : Reachable sha (BlockChain.new sha)
  | addBlock (c c1 : BlockChain) (fuel index : Nat) (timestamp data previoushash : String) :
      Reachable sha c →
      c.addBlock sha fuel (Block.new sha index timestamp data previoushash) = .returns c1 →
      Reachable sha c1
  | isChainValid (c c1 : BlockChain) (fuel : Nat) (r : Bool) :
      Reachable sha c → c.isChainValid sha fuel = .returns (r, c1) → Reachable sha c1

/-- Every block after the first records the hash of the block before it. -/
def linked : List Block → Bool
  | [] => true
  | first :: rest => linkedFrom first rest

/-- The block `b1` is `b` up to `nonce` and `hash`, and its nonce is not smaller. -/
def Block.SameUpToMining (b b1 : Block) : Prop :=
  b1.index = b.index ∧ b1.timestamp = b.timestamp ∧ b1.data = b.data ∧
    b1.previoushash = b.previoushash ∧ b.nonce ≤ b1.nonce

/-- The invariant of the reachable chain states. -/
def Inv (c : BlockChain) : Prop :=
  c.difficulty = 3 ∧ c.chain ≠ [] ∧ (∀ b ∈ c.chain.tail, b.Mined c.difficulty) ∧
    linked c.chain = true

/-! ## Concrete chain states under the real SHA-256 -/

/-- The genesis block as `new BlockChain()` stores it. -/
def genesisBlock : Block :=
  { index := 0, timestamp := "01/01/2018", data := "Genesis", previoushash := "0",
    hash := "5e1b46849ced8db8154cfe07c37df0e09a3abc7851c621d0e0876f012f7a165e", nonce := 0 }

/-- The block `new Block(1, "02/01/2018", "Block 1722")` as `addBlock` stores it on a new
chain: two iterations of the mining loop. -/
def firstBlock : Block :=
  { index := 1, timestamp := "02/01/2018", data := "Block 1722",
    previoushash := "5e1b46849ced8db8154cfe07c37df0e09a3abc7851c621d0e0876f012f7a165e",
    hash := "000885c8932af349e44f1d87d57f7d9da11f3abf347471e096d610d188baf429", nonce := 2 }

/-- The block `new Block(2, "03/01/2018", "Block 2723")` as `addBlock` stores it after
`firstBlock`: one iteration of the mining loop. -/
def secondBlock : Block :=
  { index := 2, timestamp := "03/01/2018", data := "Block 2723",
    previoushash := "000885c8932af349e44f1d87d57f7d9da11f3abf347471e096d610d188baf429",
    hash := "0008428d6a749f3444f317f53217dddb23c86097b6922fadc5d2a79dbd0802f7", nonce := 1 }

/-- The state of `new BlockChain()`. -/
def genesisChain : BlockChain := { chain := [genesisBlock], difficulty := 3 }

/-- The chain after one `addBlock`. -/
def chain2 : BlockChain := { chain := [genesisBlock, firstBlock], difficulty := 3 }

/-- The chain after two `addBlock` calls. -/
def chain3 : BlockChain := { chain := [genesisBlock, firstBlock, secondBlock], difficulty := 3 }

/-- The block `firstBlock` after `data = "Breaking things 1011"` and
`hash = calculateHash()`. -/
def forgedBlock : Block :=
  { index := 1, timestamp := "02/01/2018", data := "Breaking things 1011",
    previoushash := "5e1b46849ced8db8154cfe07c37df0e09a3abc7851c621d0e0876f012f7a165e",
    hash := "9df1165e335d38a723c56009e451b808c01df2c4759b211bf035ffcacdebad04", nonce := 2 }

/-- The block `forgedBlock` after `mineBlock(3)`: one iteration of the mining loop. -/
def reminedBlock : Block :=
  { index := 1, timestamp := "02/01/2018", data := "Breaking things 1011",
    previoushash := "5e1b46849ced8db8154cfe07c37df0e09a3abc7851c621d0e0876f012f7a165e",
    hash := "000a04f38fd69475185f89a4d879cdb76f7f62cbec8ce38bec02b219ff91640d", nonce := 3 }

/-- The chain `chain3` with its block 1 forged. -/
def forgedChain : BlockChain :=
  { chain := [genesisBlock, forgedBlock, secondBlock], difficulty := 3 }

/-- The chain `forgedChain` after `isChainValid()`. -/
def reminedChain : BlockChain :=
  { chain := [genesisBlock, reminedBlock, secondBlock], difficulty := 3 }

/-- The block `new Block(1, "02/01/2018", "Block 7995")` as `addBlock` stores it on a new
chain: the digest taken by the constructor already begins with three zeros, so the mining
loop does not run. -/
def luckyBlock : Block :=
  { index := 1, timestamp := "02/01/2018", data := "Block 7995",
    previoushash := "5e1b46849ced8db8154cfe07c37df0e09a3abc7851c621d0e0876f012f7a165e",
    hash := "00066c1feb79c2c3b50b865de677db3803271617c8ac4ff0a357cecb70cfd2ed", nonce := 0 }

/-- The chain after `addBlock` of the lucky block on a new chain. -/
def luckyChain : BlockChain := { chain := [genesisBlock, luckyBlock], difficulty := 3 }

/-- The chain `chain2` after the assignment `chain.difficulty = 65`: no SHA-256 digest, 64
characters long, begins with 65 zeros. -/
def steepChain : BlockChain := { chain := [genesisBlock, firstBlock], difficulty := 65 }

/-- The block `new Block(1, "02/01/2018", "Block 7033")` after the assignment
`nonce = 9007199254740992`, the number `2 ^ 53`. -/
def stuckBlock : Block :=
  { index := 1, timestamp := "02/01/2018", data := "Block 7033", previoushash := "",
    hash := "73d57184b5f00ee3ad2f12ed87eb7ceaca3e81bff8b66b9f9e2078b3ad26f03a",
    nonce := 9007199254740992 }

/-- The block `stuckBlock` after `mineBlock(3)`: one iteration, the nonce as it was. -/
def stuckMined : Block :=
  { index := 1, timestamp := "02/01/2018", data := "Block 7033", previoushash := "",
    hash := "0002799f4dac87b1e158788ec6c30711a258ae094cd3ec0a79eb02add7b804f0",
    nonce := 9007199254740992 }

/-! ## The chain as an array of object references -/

/-- The block objects of a program and a chain object: `objects` lists every `Block` object
created so far, an object being known by its position in that list; `chain` is the array
`this.chain`, whose entries are references to objects; `difficulty` is `this.difficulty`.
One object may stand at several positions of `chain`. -/
structure Store where
  objects : List Block
  chain : List Nat
  difficulty : Nat
  deriving DecidableEq, Repr

/-- The constructor `new BlockChain()` (lines 48-52) in a program without other blocks. -/
def Store.new (sha : String → String) : Store :=
  { objects := [createGenesisBlock sha], chain := [0], difficulty := 3 }

/-- The expression `new Block(index, timestamp, data, previoushash)`: the store with the new
object, and the reference to it. -/
def Store.newBlock (sha : String → String) (s : Store) (index : Nat)
    (timestamp data previoushash : String) : Store × Nat :=
  ({ s with objects := s.objects ++ [Block.new sha index timestamp data previoushash] },
    s.objects.length)

/-- The method `getLatestBlock()` (lines 62-64): the reference `this.chain[length - 1]`. -/
def Store.getLatestBlock (s : Store) : Option Nat :=
  s.chain[s.chain.length - 1]?

/-- The method `addBlock(newBlock)` (lines 69-73), `newBlock` being a reference: the object
it refers to is mutated in place, whether or not the chain already holds it, and the
reference is pushed. -/
def Store.addBlock (sha : String → String) (fuel : Nat) (s : Store) (newBlock : Nat) :
    Outcome Store :=
  match s.getLatestBlock with
  | none => .typeError
  | some latestRef =>
    match s.objects[latestRef]?, s.objects[newBlock]? with
    | some latest, some b =>
      match Block.mineBlock sha s.difficulty fuel { b with previoushash := latest.hash } with
      | .returns (_, mined) =>
        .returns { s with objects := s.objects.set newBlock mined, chain := s.chain ++ [newBlock] }
      | .typeError => .typeError
      | .outOfFuel => .outOfFuel
    | _, _ => .typeError

/-- The `for` loop of `isChainValid` (lines 79-100) from position `i` on: `previous` is the
reference `chain[i - 1]`, the list holds the references `chain[i], chain[i + 1], ...`.
The object `current` refers to is mined in place; `previous.hash` is read afterwards
(line 97), so it is the mined hash when both references are to one object. -/
def Store.validateFrom (sha : String → String) (difficulty fuel : Nat) :
    List Block → Nat → List Nat → Outcome (Bool × List Block)
  | objects, _, [] => .returns (true, objects)
  | objects, previous, current :: rest =>
    match objects[current]? with
    | none => .typeError
    | some b =>
      match Block.mineBlock sha difficulty fuel b with
      | .returns (currM, mined) =>
        match (objects.set current mined)[previous]? with
        | none => .typeError
        | some p =>
          if currM ≠ none ∧ some mined.hash ≠ currM then
            .returns (false, objects.set current mined)
          else if mined.previoushash ≠ p.hash then .returns (false, objects.set current mined)
          else Store.validateFrom sha difficulty fuel (objects.set current mined) current rest
      | .typeError => .typeError
      | .outOfFuel => .outOfFuel

/-- The method `isChainValid()` (lines 78-102) on object references. -/
def Store.isChainValid (sha : String → String) (fuel : Nat) (s : Store) :
    Outcome (Bool × Store) :=
  match s.chain with
  | [] => .returns (true, s)
  | first :: rest =>
    match Store.validateFrom sha s.difficulty fuel s.objects first rest with
    | .returns (r, objects1) => .returns (r, { s with objects := objects1 })
    | .typeError => .typeError
    | .outOfFuel => .outOfFuel

/-- The blocks of the chain, position by position. -/
def Store.view (s : Store) : BlockChain :=
  { chain := s.chain.filterMap (fun r => s.objects[r]?), difficulty := s.difficulty }

/-- The block `new Block(1, "02/01/2018", "Block 1559746")` as `addBlock` stores it on a new
chain: one iteration of the mining loop. -/
def thirdBlock : Block :=
  { index := 1, timestamp := "02/01/2018", data := "Block 1559746",
    previoushash := "5e1b46849ced8db8154cfe07c37df0e09a3abc7851c621d0e0876f012f7a165e",
    hash := "0006c0adfbdbebda593714d7bf6238b6f6f92fb6145c68898b8756cfe6aea86b", nonce := 1 }

/-- The genesis object after the assignment `previoushash = thirdBlock.hash`. -/
def relinkedGenesis : Block :=
  { index := 0, timestamp := "01/01/2018", data := "Genesis",
    previoushash := "0006c0adfbdbebda593714d7bf6238b6f6f92fb6145c68898b8756cfe6aea86b",
    hash := "5e1b46849ced8db8154cfe07c37df0e09a3abc7851c621d0e0876f012f7a165e", nonce := 0 }

/-- The object `relinkedGenesis` after `mineBlock(3)`: two iterations of the mining loop. -/
def reminedGenesis : Block :=
  { index := 0, timestamp := "01/01/2018", data := "Genesis",
    previoushash := "0006c0adfbdbebda593714d7bf6238b6f6f92fb6145c68898b8756cfe6aea86b",
    hash := "000f80bd25ed2e468cbd43420255bcb068cba9b41d5a2a44702199cabc93d5c6", nonce := 2 }

/-- The store after `c = new BlockChain()` and
`c.addBlock(new Block(1, "02/01/2018", "Block 1559746"))`. -/
def store2 : Store :=
  { objects := [genesisBlock, thirdBlock], chain := [0, 1], difficulty := 3 }

/-- The store `store2` after `c.addBlock(c.chain[0])`: the genesis object is at positions 0
and 2, relinked and mined. -/
def store3 : Store :=
  { objects := [reminedGenesis, thirdBlock], chain := [0, 1, 0], difficulty := 3 }

/-- The store `store2` after `c.chain.push(c.chain[0])` and
`c.chain[0].previoushash = c.chain[1].hash`. -/
def aliasedStore : Store :=
  { objects := [relinkedGenesis, thirdBlock], chain := [0, 1, 0], difficulty := 3 }

/-- Apply a function to the value a call returns. -/
def Outcome.map {α β : Type} (f : α → β) : Outcome α → Outcome β
  | .returns a => .returns (f a)
  | .typeError => .typeError
  | .outOfFuel => .outOfFuel

/-- The stores the public interface can produce when every block handed to `addBlock` is
freshly constructed: a new chain, `addBlock(new Block(...))`, and `isChainValid()`, each call
having returned. -/
inductive Store.Reachable (sha : String → String) : Store → Prop where
  | new : Store.Reachable sha (Store.new sha)
  | addBlock (s s1 : Store) (fuel index : Nat) (timestamp data previoushash : String) :
      Store.Reachable sha s →
      (s.newBlock sha index timestamp data previoushash).1.addBlock sha fuel
          (s.newBlock sha index timestamp data previoushash).2 = .returns s1 →
      Store.Reachable sha s1
  | isChainValid (s s1 : Store) (fuel : Nat) (r : Bool) :
      Store.Reachable sha s → s.isChainValid sha fuel = .returns (r, s1) →
      Store.Reachable sha s1

/-- The invariant of the reachable stores that concerns the genesis object: it is object 0,
it stands at position 0 of the chain and nowhere else, and every reference of the chain is
to an object. -/
def Store.Anchored (sha : String → String) (s : Store) : Prop :=
  s.objects[0]? = some (createGenesisBlock sha) ∧
    (∃ rest : List Nat, s.chain = 0 :: rest ∧ 0 ∉ rest) ∧
    ∀ r ∈ s.chain, r < s.objects.length

/-! ## Payloads that are not strings -/

/-- A block whose payload is a JavaScript value of any kind, `δ` being the type of the
payloads together with whatever state their serialization reads. -/
structure PayloadBlock (δ : Type) where
  index : Nat
  timestamp : String
  data : δ
  previoushash : String
  hash : String
  nonce : Nat

/-- The method `calculateHash()` (lines 24-29) on such a block.  `serialize` is what
`JSON.stringify(this.data)` does: the text it returns and the payload after the call, which a
`toJSON` method or an accessor property of the payload may have changed.  The result is the
digest and the block after the call. -/
def PayloadBlock.calculateHash {δ : Type} (sha : String → String) (serialize : δ → String × δ)
    (b : PayloadBlock δ) : String × PayloadBlock δ :=
  (sha (toString b.index ++ b.previoushash ++ b.timestamp ++ (serialize b.data).1 ++
      nonceString (some b.nonce)),
    { b with data := (serialize b.data).2 })

/-- What `JSON.stringify` does on a string payload. -/
def serializeString (s : String) : String × String := (stringify s, s)

/-- What `JSON.stringify` does on the payload `{ n: n, toJSON() { return this.n++ } }`, given
by the number `n`: the text is the decimal form of `n`, and `n` is incremented. -/
def serializeCounter (n : Nat) : String × Nat := (toString n, increment n)

/-- A block of the string model as a block with a string payload. -/
def Block.toPayloadBlock (b : Block) : PayloadBlock String :=
  { index := b.index, timestamp := b.timestamp, data := b.data, previoushash := b.previoushash,
    hash := b.hash, nonce := b.nonce }

/-- The block `new Block(1, "02/01/2018", { n: 0, toJSON() { return this.n++ } })`: the
constructor has serialized the payload once, so the counter is at 1. -/
def counterBlock : PayloadBlock Nat :=
  { index := 1, timestamp := "02/01/2018", data := 1, previoushash := "",
    hash := "f5d7b022a806a90601eb0f2adecca2af86a17cb30df349b588f12309ab8094eb", nonce := 0 }

/-! ## Mining -/

theorem increment_of_lt (n : Nat) (h : n < 9007199254740992) : increment n = n + 1 := by
  simp [increment, h]

theorem le_increment (n : Nat) : n ≤ increment n := by
  unfold increment
  split
  · omega
  · split <;> omega

theorem mineBlock_of_mined (sha : String → String) (d fuel : Nat) (b : Block)
    (h : b.Mined d) : Block.mineBlock sha d fuel b = .returns (none, b) := by
  unfold Block.Mined at h
  cases fuel <;> simp [Block.mineBlock, h]

theorem mineBlock_returns (sha : String → String) (d : Nat) :
    ∀ (fuel : Nat) (b b1 : Block) (r : Option String),
      Block.mineBlock sha d fuel b = .returns (r, b1) →
      r = none ∧ b1.Mined d ∧ b1.index = b.index ∧ b1.timestamp = b.timestamp ∧
        b1.data = b.data ∧ b1.previoushash = b.previoushash ∧ b.nonce ≤ b1.nonce := by
  intro fuel
  induction fuel with
  | zero =>
    intro b b1 r h
    by_cases hm : substring0 b.hash d = zeros d
    · simp [Block.mineBlock, hm] at h
      obtain ⟨rfl, rfl⟩ := h
      exact ⟨rfl, hm, rfl, rfl, rfl, rfl, le_refl _⟩
    · simp [Block.mineBlock, hm] at h
  | succ fuel ih =>
    intro b b1 r h
    by_cases hm : substring0 b.hash d = zeros d
    · simp [Block.mineBlock, hm] at h
      obtain ⟨rfl, rfl⟩ := h
      exact ⟨rfl, hm, rfl, rfl, rfl, rfl, le_refl _⟩
    · simp only [Block.mineBlock, ne_eq, hm, not_false_eq_true, if_true] at h
      obtain ⟨h1, h2, h3, h4, h5, h6, h7⟩ := ih _ _ _ h
      exact ⟨h1, h2, h3, h4, h5, h6, le_trans (le_increment b.nonce) h7⟩

/-! ## Validation of chains whose blocks are all mined -/

theorem validateFrom_of_mined (sha : String → String) (d fuel : Nat) :
    ∀ (rest : List Block) (previous : Block), (∀ b ∈ rest, b.Mined d) →
      validateFrom sha d fuel previous rest = .returns (linkedFrom previous rest, rest) := by
  intro rest
  induction rest with
  | nil => intro previous _; rfl
  | cons current rest ih =>
    intro previous h
    have hc : current.Mined d := h current (List.mem_cons_self _ _)
    have hr : ∀ b ∈ rest, b.Mined d := fun b hb => h b (List.mem_cons_of_mem _ hb)
    by_cases hl : current.previoushash = previous.hash
    · simp [validateFrom, mineBlock_of_mined sha d fuel current hc, ih current hr, linkedFrom, hl]
    · simp [validateFrom, mineBlock_of_mined sha d fuel current hc, linkedFrom, hl]

theorem isChainValid_of_mined (sha : String → String) (fuel : Nat) (c : BlockChain)
    (h : ∀ b ∈ c.chain.tail, b.Mined c.difficulty) :
    c.isChainValid sha fuel = .returns (linked c.chain, c) := by
  obtain ⟨chain, d⟩ := c
  cases chain with
  | nil => rfl
  | cons first rest =>
    simp only [List.tail_cons] at h
    simp [BlockChain.isChainValid, validateFrom_of_mined sha d fuel rest first h, linked]

theorem linkedFrom_append (m : Block) :
    ∀ (rest : List Block) (first : Block),
      linkedFrom first (rest ++ [m]) =
        (linkedFrom first rest &&
          decide (m.previoushash = ((first :: rest).getLast (List.cons_ne_nil _ _)).hash)) := by
  intro rest
  induction rest with
  | nil => intro first; simp [linkedFrom]
  | cons b rest ih =>
    intro first
    simp [linkedFrom, ih b, Bool.and_assoc]

theorem linkedFrom_get (rest : List Block) :
    ∀ (first : Block), linkedFrom first rest = true →
      ∀ (i : Nat) (p q : Block), (first :: rest)[i]? = some p → (first :: rest)[i + 1]? = some q →
        q.previoushash = p.hash := by
  induction rest with
  | nil => intro first _ i p q _ hq; simp at hq
  | cons b rest ih =>
    intro first h i p q hp hq
    simp only [linkedFrom, Bool.and_eq_true, decide_eq_true_eq] at h
    cases i with
    | zero =>
      simp at hp hq
      subst hp; subst hq
      exact h.1
    | succ i =>
      simp only [List.getElem?_cons_succ] at hp hq
      exact ih b h.2 i p q hp (by simpa using hq)

theorem getLatestBlock_eq (c : BlockChain) (h : c.chain ≠ []) :
    c.getLatestBlock = some (c.chain.getLast h) := by
  unfold BlockChain.getLatestBlock
  rw [← List.getLast?_eq_getElem?, List.getLast?_eq_getLast _ h]

theorem addBlock_returns (sha : String → String) (fuel : Nat) (c c1 : BlockChain) (b : Block)
    (h : c.addBlock sha fuel b = .returns c1) :
    ∃ (hne : c.chain ≠ []) (mined : Block),
      Block.mineBlock sha c.difficulty fuel
          { b with previoushash := (c.chain.getLast hne).hash } = .returns (none, mined) ∧
        c1 = { c with chain := c.chain ++ [mined] } := by
  by_cases hne : c.chain = []
  · simp [BlockChain.addBlock, BlockChain.getLatestBlock, hne] at h
  · refine ⟨hne, ?_⟩
    simp only [BlockChain.addBlock, getLatestBlock_eq c hne] at h
    split at h
    · next r mined hm =>
      have hr := (mineBlock_returns sha _ _ _ _ _ hm).1
      subst hr
      simp only [Outcome.returns.injEq] at h
      exact ⟨mined, hm, h.symm⟩
    · simp at h
    · simp at h

theorem addBlock_inv (sha : String → String) (fuel : Nat) (c c1 : BlockChain) (b : Block)
    (hc : Inv c) (h : c.addBlock sha fuel b = .returns c1) : Inv c1 := by
  obtain ⟨hne, mined, hm, rfl⟩ := addBlock_returns sha fuel c c1 b h
  obtain ⟨hd, _, hmined, hlink⟩ := hc
  obtain ⟨-, hm2, -, -, -, hp, -⟩ := mineBlock_returns sha _ _ _ _ _ hm
  obtain ⟨chain, d⟩ := c
  cases chain with
  | nil => exact absurd rfl hne
  | cons first rest =>
    refine ⟨hd, by simp, ?_, ?_⟩
    · intro x hx
      simp only [List.cons_append, List.tail_cons, List.mem_append, List.mem_singleton] at hx
      rcases hx with hx | rfl
      · exact hmined x (by simpa using hx)
      · exact hm2
    · simp only [linked, List.cons_append] at hlink ⊢
      rw [linkedFrom_append, hlink]
      simpa using hp

theorem reachable_inv (sha : String → String) (c : BlockChain) (h : Reachable sha c) :
    Inv c := by
  induction h with
  | new => exact ⟨rfl, by simp [BlockChain.new], by simp [BlockChain.new], rfl⟩
  | addBlock c c1 fuel index timestamp data previoushash _ hadd ih =>
    exact addBlock_inv sha fuel c c1 _ ih hadd
  | isChainValid c c1 fuel r _ hv ih =>
    rw [isChainValid_of_mined sha fuel c ih.2.2.1] at hv
    simp only [Outcome.returns.injEq, Prod.mk.injEq] at hv
    rw [← hv.2]
    exact ih

/-! ## When the stored hash is the digest of the stored fields -/

theorem mineBlock_keeps_consistent (sha : String → String) (d : Nat) :
    ∀ (fuel : Nat) (b : Block) (x : Option String × Block),
      b.hash = b.calculateHash sha → Block.mineBlock sha d fuel b = .returns x →
      x.2.hash = x.2.calculateHash sha := by
  intro fuel
  induction fuel with
  | zero =>
    intro b x hb h
    by_cases hm : substring0 b.hash d = zeros d
    · rw [mineBlock_of_mined sha d _ b hm] at h
      simp only [Outcome.returns.injEq] at h
      rw [← h]; exact hb
    · simp [Block.mineBlock, hm] at h
  | succ fuel ih =>
    intro b x hb h
    by_cases hm : substring0 b.hash d = zeros d
    · rw [mineBlock_of_mined sha d _ b hm] at h
      simp only [Outcome.returns.injEq] at h
      rw [← h]; exact hb
    · simp only [Block.mineBlock, ne_eq, hm, not_false_eq_true, if_true] at h
      exact ih _ x rfl h

theorem mineBlock_consistent_of_not_mined (sha : String → String) (d fuel : Nat) (b : Block)
    (x : Option String × Block) (hn : ¬ b.Mined d)
    (h : Block.mineBlock sha d fuel b = .returns x) : x.2.hash = x.2.calculateHash sha := by
  unfold Block.Mined at hn
  cases fuel with
  | zero => simp [Block.mineBlock, hn] at h
  | succ fuel =>
    simp only [Block.mineBlock, ne_eq, hn, not_false_eq_true, if_true] at h
    exact mineBlock_keeps_consistent sha d fuel _ x rfl h

theorem addBlock_consistent_of_not_mined (sha : String → String) (fuel : Nat)
    (c c1 : BlockChain) (b : Block) (hn : ¬ b.Mined c.difficulty)
    (h : c.addBlock sha fuel b = .returns c1) :
    ∃ stored : Block, c1.chain = c.chain ++ [stored] ∧ stored.hash = stored.calculateHash sha := by
  obtain ⟨hne, mined, hm, rfl⟩ := addBlock_returns sha fuel c c1 b h
  have hn1 : ¬ Block.Mined c.difficulty { b with previoushash := (c.chain.getLast hne).hash } := hn
  exact ⟨mined, rfl, mineBlock_consistent_of_not_mined sha _ fuel _ _ hn1 hm⟩

/-! ## What validation never changes -/

theorem validateFrom_frame (sha : String → String) (d fuel : Nat) :
    ∀ (rest : List Block) (previous : Block) (r : Bool) (rest1 : List Block),
      validateFrom sha d fuel previous rest = .returns (r, rest1) →
      List.Forall₂ Block.SameUpToMining rest rest1 := by
  intro rest
  induction rest with
  | nil =>
    intro previous r rest1 h
    simp only [validateFrom, Outcome.returns.injEq, Prod.mk.injEq] at h
    rw [← h.2]; exact List.Forall₂.nil
  | cons current rest ih =>
    intro previous r rest1 h
    have hrefl : ∀ l : List Block, List.Forall₂ Block.SameUpToMining l l := by
      intro l
      induction l with
      | nil => exact List.Forall₂.nil
      | cons a l ihl => exact List.Forall₂.cons ⟨rfl, rfl, rfl, rfl, le_refl _⟩ ihl
    simp only [validateFrom] at h
    split at h
    · next currM mined hm =>
      obtain ⟨-, -, h1, h2, h3, h4, h5⟩ := mineBlock_returns sha _ _ _ _ _ hm
      have hb : Block.SameUpToMining current mined := ⟨h1, h2, h3, h4, h5⟩
      split at h
      · simp only [Outcome.returns.injEq, Prod.mk.injEq] at h
        rw [← h.2]; exact List.Forall₂.cons hb (hrefl rest)
      · split at h
        · simp only [Outcome.returns.injEq, Prod.mk.injEq] at h
          rw [← h.2]; exact List.Forall₂.cons hb (hrefl rest)
        · split at h
          · next r2 rest2 hv =>
            simp only [Outcome.returns.injEq, Prod.mk.injEq] at h
            rw [← h.2]; exact List.Forall₂.cons hb (ih mined r2 rest2 hv)
          · simp at h
          · simp at h
    · simp at h
    · simp at h

theorem isChainValid_frame (sha : String → String) (fuel : Nat) (c c1 : BlockChain) (r : Bool)
    (h : c.isChainValid sha fuel = .returns (r, c1)) :
    c1.difficulty = c.difficulty ∧ c1.chain.head? = c.chain.head? ∧
      List.Forall₂ Block.SameUpToMining c.chain c1.chain := by
  obtain ⟨chain, d⟩ := c
  cases chain with
  | nil =>
    simp only [BlockChain.isChainValid, Outcome.returns.injEq, Prod.mk.injEq] at h
    rw [← h.2]; exact ⟨rfl, rfl, List.Forall₂.nil⟩
  | cons first rest =>
    simp only [BlockChain.isChainValid] at h
    split at h
    · next r2 rest2 hv =>
      simp only [Outcome.returns.injEq, Prod.mk.injEq] at h
      rw [← h.2]
      exact ⟨rfl, rfl, List.Forall₂.cons ⟨rfl, rfl, rfl, rfl, le_refl _⟩
        (validateFrom_frame sha d fuel rest first r2 rest2 hv)⟩
    · simp at h
    · simp at h

/-! ## A call that returns within one iteration bound returns the same under a larger one -/

theorem mineBlock_mono (sha : String → String) (d : Nat) :
    ∀ (fuel : Nat) (b : Block) (x : Option String × Block),
      Block.mineBlock sha d fuel b = .returns x →
      ∀ k, Block.mineBlock sha d (fuel + k) b = .returns x := by
  intro fuel
  induction fuel with
  | zero =>
    intro b x h k
    by_cases hm : substring0 b.hash d = zeros d
    · rw [mineBlock_of_mined sha d _ b hm] at h ⊢
      exact h
    · simp [Block.mineBlock, hm] at h
  | succ fuel ih =>
    intro b x h k
    by_cases hm : substring0 b.hash d = zeros d
    · rw [mineBlock_of_mined sha d _ b hm] at h ⊢
      exact h
    · have e : fuel + 1 + k = (fuel + k) + 1 := by omega
      rw [e]
      simp only [Block.mineBlock, ne_eq, hm, not_false_eq_true, if_true] at h ⊢
      exact ih _ _ h k

theorem validateFrom_mono (sha : String → String) (d fuel k : Nat) :
    ∀ (rest : List Block) (previous : Block) (x : Bool × List Block),
      validateFrom sha d fuel previous rest = .returns x →
      validateFrom sha d (fuel + k) previous rest = .returns x := by
  intro rest
  induction rest with
  | nil => intro previous x h; simpa [validateFrom] using h
  | cons current rest ih =>
    intro previous x h
    simp only [validateFrom] at h ⊢
    split at h
    · next currM mined hm =>
      rw [mineBlock_mono sha d fuel current _ hm k]
      simp only
      split at h
      · rw [if_pos (by assumption)]; exact h
      · rw [if_neg (by assumption)]
        split at h
        · rw [if_pos (by assumption)]; exact h
        · rw [if_neg (by assumption)]
          split at h
          · next r rest1 hv =>
            rw [ih mined _ hv]
            exact h
          · simp at h
          · simp at h
    · simp at h
    · simp at h

theorem isChainValid_mono (sha : String → String) (fuel k : Nat) (c : BlockChain)
    (x : Bool × BlockChain) (h : c.isChainValid sha fuel = .returns x) :
    c.isChainValid sha (fuel + k) = .returns x := by
  obtain ⟨chain, d⟩ := c
  cases chain with
  | nil => simpa [BlockChain.isChainValid] using h
  | cons first rest =>
    simp only [BlockChain.isChainValid] at h ⊢
    split at h
    · next r rest1 hv =>
      rw [validateFrom_mono sha d fuel k rest first _ hv]
      exact h
    · simp at h
    · simp at h

theorem addBlock_mono (sha : String → String) (fuel k : Nat) (c c1 : BlockChain) (b : Block)
    (h : c.addBlock sha fuel b = .returns c1) : c.addBlock sha (fuel + k) b = .returns c1 := by
  obtain ⟨hne, mined, hm, rfl⟩ := addBlock_returns sha fuel c c1 b h
  simp [BlockChain.addBlock, getLatestBlock_eq c hne, mineBlock_mono sha _ fuel _ _ hm k]

/-! ## Mutations that keep `hash` and `previoushash` -/

theorem linkedFrom_congr (rest : List Block) (p q : Block) (h : p.hash = q.hash) :
    linkedFrom p rest = linkedFrom q rest := by
  cases rest with
  | nil => rfl
  | cons b rest => simp [linkedFrom, h]

theorem linkedFrom_modifyAt (f : Block → Block) (hh : ∀ b, (f b).hash = b.hash)
    (hp : ∀ b, (f b).previoushash = b.previoushash) :
    ∀ (rest : List Block) (i : Nat) (first : Block),
      linkedFrom first (modifyAt f i rest) = linkedFrom first rest := by
  intro rest
  induction rest with
  | nil => intro i first; simp [modifyAt]
  | cons b rest ih =>
    intro i first
    cases i with
    | zero => simp [modifyAt, linkedFrom, hp, linkedFrom_congr rest (f b) b (hh b)]
    | succ i => simp [modifyAt, linkedFrom, ih i b]

theorem linked_modifyAt (f : Block → Block) (hh : ∀ b, (f b).hash = b.hash)
    (hp : ∀ b, (f b).previoushash = b.previoushash) (i : Nat) (l : List Block) :
    linked (modifyAt f i l) = linked l := by
  cases l with
  | nil => simp [modifyAt]
  | cons first rest =>
    cases i with
    | zero => simp [modifyAt, linked, linkedFrom_congr rest (f first) first (hh first)]
    | succ i => simp [modifyAt, linked, linkedFrom_modifyAt f hh hp rest i first]

theorem mined_modifyAt (f : Block → Block) (hh : ∀ b, (f b).hash = b.hash) (d : Nat) :
    ∀ (l : List Block) (i : Nat), (∀ b ∈ l, b.Mined d) → ∀ b ∈ modifyAt f i l, b.Mined d := by
  intro l
  induction l with
  | nil => intro i _ b hb; simp [modifyAt] at hb
  | cons a l ih =>
    intro i h b hb
    have ha : a.Mined d := h a (List.mem_cons_self _ _)
    have hl : ∀ x ∈ l, x.Mined d := fun x hx => h x (List.mem_cons_of_mem _ hx)
    cases i with
    | zero =>
      simp only [modifyAt, List.mem_cons] at hb
      rcases hb with rfl | hb
      · unfold Block.Mined at ha ⊢
        rw [hh]; exact ha
      · exact hl b hb
    | succ i =>
      simp only [modifyAt, List.mem_cons] at hb
      rcases hb with rfl | hb
      · exact ha
      · exact ih i hl b hb

theorem isChainValid_setData (sha : String → String) (c : BlockChain) (h : Inv c) (i : Nat)
    (payload : String) (fuel : Nat) :
    (c.setData i payload).isChainValid sha fuel = .returns (true, c.setData i payload) := by
  obtain ⟨_, _, hmined, hlink⟩ := h
  have hh : ∀ b : Block, (Block.setData payload b).hash = b.hash := fun _ => rfl
  have hp : ∀ b : Block, (Block.setData payload b).previoushash = b.previoushash := fun _ => rfl
  have hm : ∀ b ∈ (c.setData i payload).chain.tail, b.Mined (c.setData i payload).difficulty := by
    obtain ⟨chain, d⟩ := c
    cases chain with
    | nil => intro b hb; simp [BlockChain.setData, modifyAt] at hb
    | cons first rest =>
      simp only [List.tail_cons] at hmined
      cases i with
      | zero => simpa [BlockChain.setData, modifyAt] using hmined
      | succ i =>
        simpa [BlockChain.setData, modifyAt] using
          mined_modifyAt (Block.setData payload) hh d rest i hmined
  rw [isChainValid_of_mined sha fuel _ hm]
  simp [BlockChain.setData, linked_modifyAt (Block.setData payload) hh hp, hlink]

/-! ## The concrete chain states are the ones the code builds -/

set_option maxRecDepth 100000 in
theorem new_sha256 : BlockChain.new sha256 = genesisChain := by decide

set_option maxRecDepth 100000 in
theorem addBlock_firstBlock :
    genesisChain.addBlock sha256 2 (Block.new sha256 1 "02/01/2018" "Block 1722" "") =
      .returns chain2 := by decide

set_option maxRecDepth 100000 in
theorem addBlock_secondBlock :
    chain2.addBlock sha256 1 (Block.new sha256 2 "03/01/2018" "Block 2723" "") =
      .returns chain3 := by decide

theorem reachable_genesisChain : Reachable sha256 genesisChain :=
  new_sha256 ▸ Reachable.new

theorem reachable_chain2 : Reachable sha256 chain2 :=
  Reachable.addBlock genesisChain chain2 2 1 "02/01/2018" "Block 1722" ""
    reachable_genesisChain addBlock_firstBlock

theorem reachable_chain3 : Reachable sha256 chain3 :=
  Reachable.addBlock chain2 chain3 1 2 "03/01/2018" "Block 2723" ""
    reachable_chain2 addBlock_secondBlock

set_option maxRecDepth 100000 in
theorem rehash_firstBlock :
    (firstBlock.setData "Breaking things 1011").rehash sha256 = forgedBlock := by decide

set_option maxRecDepth 100000 in
theorem mineBlock_forgedBlock :
    Block.mineBlock sha256 3 1 forgedBlock = .returns (none, reminedBlock) := by decide

theorem isChainValid_forgedChain :
    forgedChain.isChainValid sha256 1 = .returns (false, reminedChain) := by
  have hs : secondBlock.Mined 3 := by decide
  simp [BlockChain.isChainValid, forgedChain, reminedChain, validateFrom, mineBlock_forgedBlock,
    mineBlock_of_mined sha256 3 1 secondBlock hs]
  decide

/-! ## The first block of a reachable chain -/

theorem reachable_head (sha : String → String) (c : BlockChain) (h : Reachable sha c) :
    c.chain.head? = some (createGenesisBlock sha) := by
  induction h with
  | new => rfl
  | addBlock c c1 fuel index timestamp data previoushash _ hadd ih =>
    obtain ⟨hne, mined, _, rfl⟩ := addBlock_returns sha fuel c c1 _ hadd
    obtain ⟨chain, d⟩ := c
    cases chain with
    | nil => exact absurd rfl hne
    | cons first rest => simpa using ih
  | isChainValid c c1 fuel r _ hv ih =>
    rw [(isChainValid_frame sha fuel c c1 r hv).2.1]
    exact ih

/-! ## A search that cannot end -/

theorem sha256_length (msg : String) : (sha256 msg).length = 64 := by
  simp [sha256, SHA256.hex32, String.length]

theorem not_mined_of_short (d : Nat) (b : Block) (h : b.hash.length < d) : ¬ b.Mined d := by
  intro hm
  have h1 : (b.hash.data.take d).length = (List.replicate d '0').length :=
    congrArg (fun s : String => s.data.length) hm
  have h2 : b.hash.data.length < d := h
  simp only [List.length_take, List.length_replicate] at h1
  omega

theorem mineBlock_sha256_diverges (d : Nat) (hd : 64 < d) :
    ∀ (fuel : Nat) (b : Block), b.hash.length < d →
      Block.mineBlock sha256 d fuel b = .outOfFuel := by
  intro fuel
  induction fuel with
  | zero =>
    intro b hb
    have hn := not_mined_of_short d b hb
    unfold Block.Mined at hn
    simp [Block.mineBlock, hn]
  | succ fuel ih =>
    intro b hb
    have hn := not_mined_of_short d b hb
    unfold Block.Mined at hn
    simp only [Block.mineBlock, ne_eq, hn, not_false_eq_true, if_true]
    apply ih
    simp only [Block.calculateHash, sha256_length]
    exact hd

/-! ## A second validation -/

theorem validateFrom_stable (sha : String → String) (d fuel : Nat) :
    ∀ (rest : List Block) (previous : Block) (r : Bool) (rest1 : List Block),
      validateFrom sha d fuel previous rest = .returns (r, rest1) →
      ∀ fuel2, validateFrom sha d fuel2 previous rest1 = .returns (r, rest1) := by
  intro rest
  induction rest with
  | nil =>
    intro previous r rest1 h fuel2
    simp only [validateFrom, Outcome.returns.injEq, Prod.mk.injEq] at h
    obtain ⟨rfl, rfl⟩ := h
    rfl
  | cons current rest ih =>
    intro previous r rest1 h fuel2
    simp only [validateFrom] at h
    split at h
    · next currM mined hm =>
      obtain ⟨hr, hmined, -⟩ := mineBlock_returns sha _ _ _ _ _ hm
      subst hr
      by_cases hl : mined.previoushash = previous.hash
      · simp only [ne_eq, not_true_eq_false, false_and, if_false, hl] at h
        split at h
        · next r2 rest2 hv =>
          simp only [Outcome.returns.injEq, Prod.mk.injEq] at h
          obtain ⟨rfl, rfl⟩ := h
          simp [validateFrom, mineBlock_of_mined sha d fuel2 mined hmined, hl,
            ih mined r2 rest2 hv fuel2]
        · simp at h
        · simp at h
      · simp [hl] at h
        obtain ⟨rfl, rfl⟩ := h
        simp [validateFrom, mineBlock_of_mined sha d fuel2 mined hmined, hl]
    · simp at h
    · simp at h

/-! ## The nonce the search stops at -/

theorem mineBlock_stuck (sha : String → String) (d : Nat) (b : Block)
    (hi : increment b.nonce = b.nonce) (hc : b.hash = b.calculateHash sha) (hn : ¬ b.Mined d) :
    ∀ fuel, Block.mineBlock sha d fuel b = .outOfFuel := by
  have hn1 := hn
  unfold Block.Mined at hn1
  intro fuel
  induction fuel with
  | zero => simp [Block.mineBlock, hn1]
  | succ fuel ih =>
    simp only [Block.mineBlock, ne_eq, hn1, not_false_eq_true, if_true]
    have e : Block.mk b.index b.timestamp b.data b.previoushash
        (Block.calculateHash sha
          (Block.mk b.index b.timestamp b.data b.previoushash b.hash (increment b.nonce)))
        (increment b.nonce) = b := by
      rw [hi]
      cases b
      simp only [Block.calculateHash] at hc ⊢
      simp [hc]
    exact (congrArg (Block.mineBlock sha d fuel) e).trans ih

theorem mineBlock_search (sha : String → String) (d : Nat) :
    ∀ (fuel : Nat) (b : Block) (r : Option String) (b1 : Block),
      Block.mineBlock sha d fuel b = .returns (r, b1) → ¬ b.Mined d →
      b.nonce < 9007199254740992 →
      b.nonce < b1.nonce ∧
        b1.hash = sha (hashInput b.index b.previoushash b.timestamp b.data (some b1.nonce)) ∧
        substring0 b1.hash d = zeros d ∧
        ∀ n, b.nonce < n → n < b1.nonce →
          substring0 (sha (hashInput b.index b.previoushash b.timestamp b.data (some n))) d ≠
            zeros d := by
  intro fuel
  induction fuel with
  | zero =>
    intro b r b1 h hn _
    unfold Block.Mined at hn
    simp [Block.mineBlock, hn] at h
  | succ fuel ih =>
    intro b r b1 h hn hb
    unfold Block.Mined at hn
    simp only [Block.mineBlock, ne_eq, hn, not_false_eq_true, if_true,
      increment_of_lt b.nonce hb] at h
    by_cases hm : Block.Mined d
        { index := b.index, timestamp := b.timestamp, data := b.data,
          previoushash := b.previoushash,
          hash := sha (hashInput b.index b.previoushash b.timestamp b.data (some (b.nonce + 1))),
          nonce := b.nonce + 1 }
    · have h5 := h.symm.trans (mineBlock_of_mined sha d fuel _ hm)
      simp only [Outcome.returns.injEq, Prod.mk.injEq] at h5
      obtain ⟨-, rfl⟩ := h5
      refine ⟨Nat.lt_succ_self _, rfl, hm, ?_⟩
      intro n h1 h2
      simp only at h2
      omega
    · by_cases hlt : b.nonce + 1 < 9007199254740992
      · obtain ⟨h1, h2, h3, h4⟩ := ih _ r b1 h hm hlt
        simp only at h1 h2 h4
        refine ⟨by omega, h2, h3, ?_⟩
        intro n hn1 hn2
        by_cases e : n = b.nonce + 1
        · subst e; exact hm
        · exact h4 n (by omega) hn2
      · have he : b.nonce + 1 = 9007199254740992 := by omega
        have hs := mineBlock_stuck sha d _ (by simp only [he]; decide) rfl hm fuel
        have h5 := h.symm.trans hs
        simp at h5

/-! ## The link check in terms of positions -/

theorem linkedFrom_of_get (rest : List Block) :
    ∀ (first : Block),
      (∀ (i : Nat) (p q : Block), (first :: rest)[i]? = some p →
        (first :: rest)[i + 1]? = some q → q.previoushash = p.hash) →
      linkedFrom first rest = true := by
  induction rest with
  | nil => intro first _; rfl
  | cons b rest ih =>
    intro first h
    simp only [linkedFrom, Bool.and_eq_true, decide_eq_true_eq]
    refine ⟨h 0 first b (by simp) (by simp), ih b ?_⟩
    intro i p q hp hq
    exact h (i + 1) p q (by simpa using hp) (by simpa using hq)

theorem linked_iff (l : List Block) :
    linked l = true ↔
      ∀ (i : Nat) (p q : Block), l[i]? = some p → l[i + 1]? = some q →
        q.previoushash = p.hash := by
  cases l with
  | nil => simp [linked]
  | cons first rest =>
    exact ⟨fun h => linkedFrom_get rest first h, fun h => linkedFrom_of_get rest first h⟩

theorem linkedFrom_map_congr :
    ∀ (rest rest2 : List Block) (first first2 : Block), first.hash = first2.hash →
      rest.map Block.hash = rest2.map Block.hash →
      rest.map Block.previoushash = rest2.map Block.previoushash →
      linkedFrom first rest = linkedFrom first2 rest2 := by
  intro rest
  induction rest with
  | nil =>
    intro rest2 first first2 _ h1 _
    cases rest2 with
    | nil => rfl
    | cons b rest2 => simp at h1
  | cons a rest ih =>
    intro rest2 first first2 hf h1 h2
    cases rest2 with
    | nil => simp at h1
    | cons b rest2 =>
      simp only [List.map_cons, List.cons.injEq] at h1 h2
      simp only [linkedFrom, h2.1, hf, ih rest2 a b h1.1 h1.2 h2.2]

theorem linked_map_congr (l l2 : List Block) (h1 : l.map Block.hash = l2.map Block.hash)
    (h2 : l.map Block.previoushash = l2.map Block.previoushash) : linked l = linked l2 := by
  cases l with
  | nil =>
    cases l2 with
    | nil => rfl
    | cons b l2 => simp at h1
  | cons a l =>
    cases l2 with
    | nil => simp at h1
    | cons b l2 =>
      simp only [List.map_cons, List.cons.injEq] at h1 h2
      exact linkedFrom_map_congr l l2 a b h1.1 h1.2 h2.2

theorem mined_map_congr (d : Nat) (l l2 : List Block)
    (h1 : l.map Block.hash = l2.map Block.hash) (h : ∀ b ∈ l.tail, b.Mined d) :
    ∀ b ∈ l2.tail, b.Mined d := by
  intro b hb
  have h3 : l.tail.map Block.hash = l2.tail.map Block.hash := by
    have := congrArg List.tail h1
    simpa using this
  have hb2 : b.hash ∈ l.tail.map Block.hash := by
    rw [h3]; exact List.mem_map_of_mem _ hb
  obtain ⟨a, ha, hab⟩ := List.mem_map.1 hb2
  have := h a ha
  unfold Block.Mined at this ⊢
  rw [← hab]; exact this

theorem mined_tail_of_get (d : Nat) (l : List Block)
    (h : ∀ (i : Nat) (b : Block), 1 ≤ i → l[i]? = some b → b.Mined d) :
    ∀ b ∈ l.tail, b.Mined d := by
  intro b hb
  cases l with
  | nil => simp at hb
  | cons first rest =>
    simp only [List.tail_cons] at hb
    obtain ⟨i, hi⟩ := List.mem_iff_getElem?.1 hb
    exact h (i + 1) b (by omega) (by simpa using hi)

/-! ## The concrete stores are the ones the code builds -/

theorem createGenesisBlock_sha256 : createGenesisBlock sha256 = genesisBlock := by
  have h := congrArg (fun c => c.chain.headD genesisBlock) new_sha256
  simpa [BlockChain.new, genesisChain] using h

set_option maxRecDepth 100000 in
theorem mineBlock_thirdBlock :
    Block.mineBlock sha256 3 1
        { Block.new sha256 1 "02/01/2018" "Block 1559746" "" with
          previoushash := genesisBlock.hash } =
      .returns (none, thirdBlock) := by decide

set_option maxRecDepth 100000 in
theorem mineBlock_relinkedGenesis :
    Block.mineBlock sha256 3 2 relinkedGenesis = .returns (none, reminedGenesis) := by decide

theorem Store.addBlock_eq (sha : String → String) (fuel : Nat) (s : Store)
    (newBlock latestRef : Nat) (latest b mined : Block) (r : Option String)
    (h1 : s.getLatestBlock = some latestRef) (h2 : s.objects[latestRef]? = some latest)
    (h3 : s.objects[newBlock]? = some b)
    (h4 : Block.mineBlock sha s.difficulty fuel { b with previoushash := latest.hash } =
      .returns (r, mined)) :
    s.addBlock sha fuel newBlock =
      .returns { s with objects := s.objects.set newBlock mined, chain := s.chain ++ [newBlock] } := by
  simp only [Store.addBlock, h1, h2, h3, h4]

theorem Store.validateFrom_step (sha : String → String) (d fuel : Nat) (objects : List Block)
    (previous current : Nat) (rest : List Nat) (b mined p : Block)
    (h1 : objects[current]? = some b)
    (h2 : Block.mineBlock sha d fuel b = .returns (none, mined))
    (h3 : (objects.set current mined)[previous]? = some p)
    (h4 : mined.previoushash = p.hash) :
    Store.validateFrom sha d fuel objects previous (current :: rest) =
      Store.validateFrom sha d fuel (objects.set current mined) current rest := by
  simp [Store.validateFrom, h1, h2, h3, h4]

theorem Store.validateFrom_stop (sha : String → String) (d fuel : Nat) (objects : List Block)
    (previous current : Nat) (rest : List Nat) (b mined p : Block)
    (h1 : objects[current]? = some b)
    (h2 : Block.mineBlock sha d fuel b = .returns (none, mined))
    (h3 : (objects.set current mined)[previous]? = some p)
    (h4 : ¬ mined.previoushash = p.hash) :
    Store.validateFrom sha d fuel objects previous (current :: rest) =
      .returns (false, objects.set current mined) := by
  simp [Store.validateFrom, h1, h2, h3, h4]

theorem Store.isChainValid_eq (sha : String → String) (fuel : Nat) (s : Store) (first : Nat)
    (rest : List Nat) (r : Bool) (objects1 : List Block) (h1 : s.chain = first :: rest)
    (h2 : Store.validateFrom sha s.difficulty fuel s.objects first rest =
      .returns (r, objects1)) :
    s.isChainValid sha fuel = .returns (r, { s with objects := objects1 }) := by
  simp only [Store.isChainValid, h1, h2]

theorem store_addBlock_thirdBlock :
    ((Store.new sha256).newBlock sha256 1 "02/01/2018" "Block 1559746" "").1.addBlock sha256 1
        ((Store.new sha256).newBlock sha256 1 "02/01/2018" "Block 1559746" "").2 =
      .returns store2 := by
  rw [Store.new, createGenesisBlock_sha256]
  exact Store.addBlock_eq sha256 1 _ 1 0 genesisBlock
    (Block.new sha256 1 "02/01/2018" "Block 1559746" "") thirdBlock none rfl rfl rfl
    mineBlock_thirdBlock

theorem store2_addBlock_genesis : store2.addBlock sha256 2 0 = .returns store3 :=
  Store.addBlock_eq sha256 2 store2 0 1 thirdBlock genesisBlock reminedGenesis none rfl rfl rfl
    mineBlock_relinkedGenesis

theorem aliasedStore_isChainValid :
    aliasedStore.isChainValid sha256 2 = .returns (true, store3) :=
  Store.isChainValid_eq sha256 2 aliasedStore 0 [1, 0] true store3.objects rfl
    ((Store.validateFrom_step sha256 3 2 aliasedStore.objects 0 1 [0] thirdBlock thirdBlock
        relinkedGenesis rfl (mineBlock_of_mined sha256 3 2 thirdBlock (by decide)) rfl rfl).trans
      ((Store.validateFrom_step sha256 3 2 aliasedStore.objects 1 0 [] relinkedGenesis
        reminedGenesis thirdBlock rfl mineBlock_relinkedGenesis rfl rfl).trans rfl))

theorem store3_isChainValid (fuel : Nat) :
    store3.isChainValid sha256 fuel = .returns (false, store3) :=
  Store.isChainValid_eq sha256 fuel store3 0 [1, 0] false store3.objects rfl
    (Store.validateFrom_stop sha256 3 fuel store3.objects 0 1 [0] thirdBlock thirdBlock
      reminedGenesis rfl (mineBlock_of_mined sha256 3 fuel thirdBlock (by decide)) rfl
      (by decide))

set_option maxRecDepth 100000 in
theorem mineBlock_stuckBlock :
    Block.mineBlock sha256 3 1 stuckBlock = .returns (none, stuckMined) := by decide

/-! ## What the operations on a store leave alone -/

theorem Store.validateFrom_keeps (sha : String → String) (d fuel : Nat) :
    ∀ (rest : List Nat) (objects : List Block) (previous : Nat) (r : Bool)
      (objects1 : List Block),
      Store.validateFrom sha d fuel objects previous rest = .returns (r, objects1) →
      objects1.length = objects.length ∧ ∀ q, q ∉ rest → objects1[q]? = objects[q]? := by
  intro rest
  induction rest with
  | nil =>
    intro objects previous r objects1 h
    simp only [Store.validateFrom, Outcome.returns.injEq, Prod.mk.injEq] at h
    rw [← h.2]
    exact ⟨rfl, fun _ _ => rfl⟩
  | cons current rest ih =>
    intro objects previous r objects1 h
    have hset : ∀ (mined : Block) (q : Nat), q ∉ current :: rest →
        (objects.set current mined)[q]? = objects[q]? := by
      intro mined q hq
      have hne : current ≠ q := fun e => hq (by simp [e])
      exact List.getElem?_set_ne hne
    simp only [Store.validateFrom] at h
    split at h
    · simp at h
    · split at h
      · split at h
        · simp at h
        · split at h
          · simp only [Outcome.returns.injEq, Prod.mk.injEq] at h
            rw [← h.2]
            exact ⟨List.length_set _ _ _, hset _⟩
          · split at h
            · simp only [Outcome.returns.injEq, Prod.mk.injEq] at h
              rw [← h.2]
              exact ⟨List.length_set _ _ _, hset _⟩
            · obtain ⟨h1, h2⟩ := ih _ _ _ _ h
              refine ⟨by rw [h1, List.length_set], ?_⟩
              intro q hq
              rw [h2 q (fun hm => hq (List.mem_cons_of_mem _ hm)), hset _ q hq]
      · simp at h
      · simp at h

theorem Store.isChainValid_keeps (sha : String → String) (fuel : Nat) (s s1 : Store) (r : Bool)
    (h : s.isChainValid sha fuel = .returns (r, s1)) :
    s1.chain = s.chain ∧ s1.difficulty = s.difficulty ∧
      s1.objects.length = s.objects.length ∧
      ∀ q, q ∉ s.chain.tail → s1.objects[q]? = s.objects[q]? := by
  obtain ⟨objects, chain, d⟩ := s
  cases chain with
  | nil =>
    simp only [Store.isChainValid, Outcome.returns.injEq, Prod.mk.injEq] at h
    rw [← h.2]
    exact ⟨rfl, rfl, rfl, fun _ _ => rfl⟩
  | cons first rest =>
    simp only [Store.isChainValid] at h
    split at h
    · next r2 objects2 hv =>
      simp only [Outcome.returns.injEq, Prod.mk.injEq] at h
      obtain ⟨h1, h2⟩ := Store.validateFrom_keeps sha d fuel rest objects first r2 objects2 hv
      rw [← h.2]
      exact ⟨rfl, rfl, h1, h2⟩
    · simp at h
    · simp at h

theorem Store.addBlock_frame (sha : String → String) (fuel : Nat) (s s1 : Store)
    (newBlock : Nat) (h : s.addBlock sha fuel newBlock = .returns s1) :
    s1.chain = s.chain ++ [newBlock] ∧ s1.difficulty = s.difficulty ∧
      s1.objects.length = s.objects.length ∧
      ∀ q, q ≠ newBlock → s1.objects[q]? = s.objects[q]? := by
  simp only [Store.addBlock] at h
  split at h
  · simp at h
  · split at h
    · split at h
      · simp only [Outcome.returns.injEq] at h
        rw [← h]
        exact ⟨rfl, rfl, List.length_set _ _ _, fun q hq => List.getElem?_set_ne (Ne.symm hq)⟩
      · simp at h
      · simp at h
    · simp at h

theorem Store.reachable_anchored (sha : String → String) (s : Store)
    (h : Store.Reachable sha s) : Store.Anchored sha s := by
  induction h with
  | new =>
    refine ⟨rfl, ⟨[], rfl, by simp⟩, ?_⟩
    intro r hr
    simp [Store.new] at hr ⊢
    omega
  | addBlock s s1 fuel index timestamp data previoushash _ hadd ih =>
    obtain ⟨h0, ⟨rest, hc, hrest⟩, hv⟩ := ih
    obtain ⟨e1, -, e3, e4⟩ := Store.addBlock_frame sha fuel _ s1 _ hadd
    simp only [Store.newBlock] at e1 e3 e4
    have hlen : 0 < s.objects.length := by
      have := hv 0 (by rw [hc]; simp)
      exact this
    refine ⟨?_, ⟨rest ++ [s.objects.length], by rw [e1, hc]; rfl, ?_⟩, ?_⟩
    · rw [e4 0 (by omega), List.getElem?_append_left hlen]
      exact h0
    · simp only [List.mem_append, List.mem_singleton, not_or]
      exact ⟨hrest, by omega⟩
    · intro r hr
      rw [e3, e1] at *
      simp only [List.mem_append, List.mem_singleton, List.length_append,
        List.length_singleton] at hr ⊢
      rcases hr with hr | hr
      · have := hv r hr
        omega
      · omega
  | isChainValid s s1 fuel r _ hv ih =>
    obtain ⟨h0, ⟨rest, hc, hrest⟩, hval⟩ := ih
    obtain ⟨e1, -, e3, e4⟩ := Store.isChainValid_keeps sha fuel s s1 r hv
    refine ⟨?_, ⟨rest, by rw [e1, hc], hrest⟩, ?_⟩
    · rw [e4 0 (by rw [hc]; exact hrest)]
      exact h0
    · intro q hq
      rw [e3]
      exact hval q (by rw [← e1]; exact hq)

/-! ## A store whose chain holds no object twice behaves as the chain of its blocks -/

theorem filterMap_set_of_not_mem (objects : List Block) (current : Nat) (mined : Block) :
    ∀ (rest : List Nat), current ∉ rest →
      rest.filterMap (fun r => (objects.set current mined)[r]?) =
        rest.filterMap (fun r => objects[r]?) := by
  intro rest
  induction rest with
  | nil => intro _; rfl
  | cons a rest ih =>
    intro h
    have ha : current ≠ a := fun e => h (by simp [e])
    have hr : current ∉ rest := fun hm => h (List.mem_cons_of_mem _ hm)
    simp only [List.filterMap_cons, List.getElem?_set_ne ha, ih hr]

theorem Store.validateFrom_view (sha : String → String) (d fuel : Nat) :
    ∀ (rest : List Nat) (objects : List Block) (previous : Nat) (pb : Block),
      (previous :: rest).Nodup → (∀ r ∈ rest, r < objects.length) →
      objects[previous]? = some pb →
      Outcome.map (fun x => (x.1, rest.filterMap (fun r => x.2[r]?)))
          (Store.validateFrom sha d fuel objects previous rest) =
        SimpleBlockChain.validateFrom sha d fuel pb (rest.filterMap (fun r => objects[r]?)) := by
  intro rest
  induction rest with
  | nil =>
    intro objects previous pb _ _ _
    simp [Store.validateFrom, SimpleBlockChain.validateFrom, Outcome.map]
  | cons current rest ih =>
    intro objects previous pb hnd hv hp
    have hcur : current < objects.length := hv current (List.mem_cons_self _ _)
    have hb : objects[current]? = some objects[current] := List.getElem?_eq_getElem hcur
    have hnd2 : (current :: rest).Nodup := (List.nodup_cons.1 hnd).2
    have hcr : current ∉ rest := (List.nodup_cons.1 hnd2).1
    have hpc : current ≠ previous := by
      intro e
      exact (List.nodup_cons.1 hnd).1 (by simp [e])
    have hvr : ∀ r ∈ rest, r < objects.length := fun r hr => hv r (List.mem_cons_of_mem _ hr)
    simp only [Store.validateFrom, hb, List.filterMap_cons, SimpleBlockChain.validateFrom]
    cases hm : Block.mineBlock sha d fuel objects[current] with
    | typeError => simp [Outcome.map]
    | outOfFuel => simp [Outcome.map]
    | returns x =>
      obtain ⟨currM, mined⟩ := x
      have hp1 : (objects.set current mined)[previous]? = some pb := by
        rw [List.getElem?_set_ne hpc]; exact hp
      have hfm := filterMap_set_of_not_mem objects current mined rest hcr
      have hself : (objects.set current mined)[current]? = some mined :=
        List.getElem?_set_self hcur
      simp only [hp1]
      by_cases c1 : currM ≠ none ∧ some mined.hash ≠ currM
      · simp [c1, Outcome.map, hself, hfm]
      · by_cases c2 : mined.previoushash ≠ pb.hash
        · simp [c1, c2, Outcome.map, hself, hfm]
        · simp only [c1, c2, if_false]
          have IH := ih (objects.set current mined) current mined hnd2
            (fun r hr => by rw [List.length_set]; exact hvr r hr) hself
          rw [hfm] at IH
          rw [← IH]
          cases hs : Store.validateFrom sha d fuel (objects.set current mined) current rest with
          | typeError => simp [Outcome.map]
          | outOfFuel => simp [Outcome.map]
          | returns y =>
            obtain ⟨r, objects1⟩ := y
            have hk := (Store.validateFrom_keeps sha d fuel rest _ current r objects1 hs).2
              current hcr
            simp [Outcome.map, hk, hself]

theorem Store.isChainValid_view (sha : String → String) (fuel : Nat) (s : Store)
    (hnd : s.chain.Nodup) (hv : ∀ r ∈ s.chain, r < s.objects.length) :
    Outcome.map (fun x => (x.1, x.2.view)) (s.isChainValid sha fuel) =
      s.view.isChainValid sha fuel := by
  obtain ⟨objects, chain, d⟩ := s
  cases chain with
  | nil => simp [Store.isChainValid, Store.view, BlockChain.isChainValid, Outcome.map]
  | cons first rest =>
    have hf : first < objects.length := hv first (List.mem_cons_self _ _)
    have hb : objects[first]? = some objects[first] := List.getElem?_eq_getElem hf
    have hfr : first ∉ rest := (List.nodup_cons.1 hnd).1
    simp only [Store.isChainValid, Store.view, List.filterMap_cons, hb,
      BlockChain.isChainValid]
    rw [← Store.validateFrom_view sha d fuel rest objects first objects[first] hnd
      (fun r hr => hv r (List.mem_cons_of_mem _ hr)) hb]
    cases hs : Store.validateFrom sha d fuel objects first rest with
    | typeError => simp [Outcome.map]
    | outOfFuel => simp [Outcome.map]
    | returns y =>
      obtain ⟨r, objects1⟩ := y
      have hk := (Store.validateFrom_keeps sha d fuel rest objects first r objects1 hs).2
        first hfr
      simp [Outcome.map, hk, hb]

theorem getLast?_filterMap_valid (objects : List Block) :
    ∀ (chain : List Nat), (∀ r ∈ chain, r < objects.length) →
      (chain.filterMap (fun r => objects[r]?)).getLast? =
        chain.getLast?.bind (fun r => objects[r]?) := by
  intro chain
  induction chain with
  | nil => intro _; rfl
  | cons a rest ih =>
    intro hv
    have hla : a < objects.length := hv a (List.mem_cons_self _ _)
    have ha : objects[a]? = some objects[a] := List.getElem?_eq_getElem hla
    have hr : ∀ r ∈ rest, r < objects.length := fun r hr => hv r (List.mem_cons_of_mem _ hr)
    cases rest with
    | nil => simp [ha]
    | cons b rest =>
      have hlb : b < objects.length := hr b (List.mem_cons_self _ _)
      have hb : objects[b]? = some objects[b] := List.getElem?_eq_getElem hlb
      have := ih hr
      simp only [List.filterMap_cons, ha, hb, List.getLast?_cons_cons] at this ⊢
      exact this

theorem Store.addBlock_view (sha : String → String) (fuel : Nat) (s : Store) (newBlock : Nat)
    (b : Block) (hv : ∀ r ∈ s.chain, r < s.objects.length) (hfresh : newBlock ∉ s.chain)
    (hb : s.objects[newBlock]? = some b) :
    Outcome.map Store.view (s.addBlock sha fuel newBlock) = s.view.addBlock sha fuel b := by
  have hlen : newBlock < s.objects.length := by
    by_contra hc
    rw [List.getElem?_eq_none (by omega)] at hb
    simp at hb
  have hlast := getLast?_filterMap_valid s.objects s.chain hv
  simp only [Store.addBlock, Store.getLatestBlock, BlockChain.addBlock,
    BlockChain.getLatestBlock, Store.view, ← List.getLast?_eq_getElem?, hlast]
  cases hl : s.chain.getLast? with
  | none => simp [Outcome.map]
  | some latestRef =>
    have hmem : latestRef ∈ s.chain := List.mem_of_getLast?_eq_some hl
    have hll : latestRef < s.objects.length := hv latestRef hmem
    obtain ⟨latest, hlat⟩ : ∃ latest, s.objects[latestRef]? = some latest :=
      ⟨s.objects[latestRef], List.getElem?_eq_getElem hll⟩
    simp only [Option.bind_some, hlat, hb]
    cases hm : Block.mineBlock sha s.difficulty fuel { b with previoushash := latest.hash } with
    | typeError => simp [Outcome.map, hlat, hm]
    | outOfFuel => simp [Outcome.map, hlat, hm]
    | returns x =>
      obtain ⟨r, mined⟩ := x
      simp [Outcome.map, hlat, hm, Store.view, List.filterMap_append,
        filterMap_set_of_not_mem s.objects newBlock mined s.chain hfresh,
        List.getElem?_set_self hlen]

theorem filterMap_append_objects (objects : List Block) (b : Block) :
    ∀ (chain : List Nat), (∀ r ∈ chain, r < objects.length) →
      chain.filterMap (fun r => (objects ++ [b])[r]?) =
        chain.filterMap (fun r => objects[r]?) := by
  intro chain
  induction chain with
  | nil => intro _; rfl
  | cons a rest ih =>
    intro hv
    have ha : a < objects.length := hv a (List.mem_cons_self _ _)
    simp only [List.filterMap_cons, List.getElem?_append_left ha,
      ih (fun r hr => hv r (List.mem_cons_of_mem _ hr))]

theorem Store.reachable_view (sha : String → String) (s : Store)
    (h : Store.Reachable sha s) :
    SimpleBlockChain.Reachable sha s.view ∧ s.chain.Nodup ∧
      ∀ r ∈ s.chain, r < s.objects.length := by
  induction h with
  | new =>
    refine ⟨SimpleBlockChain.Reachable.new, by simp [Store.new], ?_⟩
    intro r hr
    simp [Store.new] at hr ⊢
    omega
  | addBlock s s1 fuel index timestamp data previoushash _ hadd ih =>
    obtain ⟨hr, hnd, hv⟩ := ih
    have hfresh : s.objects.length ∉ s.chain := fun hm => Nat.lt_irrefl _ (hv _ hm)
    have hv1 : ∀ r ∈ (s.newBlock sha index timestamp data previoushash).1.chain,
        r < (s.newBlock sha index timestamp data previoushash).1.objects.length := by
      intro r hm
      have := hv r hm
      simp only [Store.newBlock, List.length_append, List.length_singleton]
      omega
    have hview : (s.newBlock sha index timestamp data previoushash).1.view = s.view := by
      simp only [Store.newBlock, Store.view, filterMap_append_objects s.objects _ s.chain hv]
    have hrefine := Store.addBlock_view sha fuel _ _
      (Block.new sha index timestamp data previoushash) hv1 hfresh
      (List.getElem?_concat_length _ _)
    rw [hview] at hrefine
    obtain ⟨e1, -, e3, -⟩ := Store.addBlock_frame sha fuel _ s1 _ hadd
    simp only [Store.newBlock] at hrefine hadd e1 e3
    rw [hadd] at hrefine
    refine ⟨SimpleBlockChain.Reachable.addBlock s.view s1.view fuel index timestamp data
      previoushash hr hrefine.symm, ?_, ?_⟩
    · rw [e1]
      refine List.Nodup.append hnd (by simp) ?_
      intro a ha hb
      simp only [List.mem_singleton] at hb
      exact hfresh (hb ▸ ha)
    · intro r hm
      rw [e1] at hm
      rw [e3]
      simp only [List.mem_append, List.mem_singleton, List.length_append,
        List.length_singleton] at hm ⊢
      rcases hm with hm | hm
      · have := hv r hm
        omega
      · omega
  | isChainValid s s1 fuel r _ hval ih =>
    obtain ⟨hr, hnd, hv⟩ := ih
    have hrefine := Store.isChainValid_view sha fuel s hnd hv
    rw [hval] at hrefine
    obtain ⟨e1, -, e3, -⟩ := Store.isChainValid_keeps sha fuel s s1 r hval
    refine ⟨SimpleBlockChain.Reachable.isChainValid s.view s1.view fuel r hr hrefine.symm, ?_, ?_⟩
    · rw [e1]; exact hnd
    · intro q hq
      rw [e3]
      exact hv q (by rw [← e1]; exact hq)

/-! ## The claims -/

/-- Claim C1 (the code does the opposite): on every chain the interface can build, after
`chain[1].data` is replaced by any payload and `chain[1].hash` is left as it was,
`isChainValid()` returns `true` and changes nothing: the tampering is not detected. -/
theorem data_tamper_not_detected (sha : String → String) (c : BlockChain)
    (h : Reachable sha c) (payload : String) (fuel : Nat) :
    (c.setData 1 payload).isChainValid sha fuel = .returns (true, c.setData 1 payload) :=
  isChainValid_setData sha c (reachable_inv sha c h) 1 payload fuel

/-- Witness of C1 under SHA-256: the chain of one `addBlock`, whose block 1 holds the payload
`"Block 1722"`, is still reported valid once the payload is `"Breaking things"`. -/
theorem data_tamper_not_detected_witness :
    Reachable sha256 chain2 ∧ chain2.chain.length = 2 ∧
      (chain2.setData 1 "Breaking things").chain ≠ chain2.chain ∧
      (chain2.setData 1 "Breaking things").isChainValid sha256 0 =
        .returns (true, chain2.setData 1 "Breaking things") :=
  ⟨reachable_chain2, rfl, by decide,
    data_tamper_not_detected sha256 chain2 reachable_chain2 "Breaking things" 0⟩

/-- Claim C2: on a chain `[genesis, B1, B2]` the interface built, after `B1.data = payload`
and `B1.hash = B1.calculateHash()`, if the nonce search that `isChainValid()` runs on `B1`
ends with a block whose hash differs from the original hash of `B1`, then `isChainValid()`
returns `false`. -/
theorem forged_hash_detected (sha : String → String) (c : BlockChain) (g b1 b2 : Block)
    (h : Reachable sha c) (hc : c.chain = [g, b1, b2]) (payload : String) (fuel : Nat)
    (r : Option String) (remined : Block)
    (hmine : Block.mineBlock sha c.difficulty fuel ((b1.setData payload).rehash sha) =
      .returns (r, remined))
    (hne : remined.hash ≠ b1.hash) :
    BlockChain.isChainValid sha fuel { c with chain := [g, (b1.setData payload).rehash sha, b2] } =
      .returns (false, { c with chain := [g, remined, b2] }) := by
  obtain ⟨_, _, hmined, hlink⟩ := reachable_inv sha c h
  obtain ⟨chain, d⟩ := c
  simp only at hc hmine
  subst hc
  simp only [linked, linkedFrom, Bool.and_true, Bool.and_eq_true, decide_eq_true_eq] at hlink
  obtain ⟨hr, -, -, -, -, hp, -⟩ := mineBlock_returns sha _ _ _ _ _ hmine
  subst hr
  have h2 : b2.Mined d := hmined b2 (by simp)
  have hp1 : remined.previoushash = g.hash := by
    rw [hp]; exact hlink.1
  have hne2 : ¬ b2.previoushash = remined.hash := by
    rw [hlink.2]; exact fun e => hne e.symm
  simp [BlockChain.isChainValid, validateFrom, hmine, hp1, mineBlock_of_mined sha d fuel b2 h2,
    hne2]

/-- Witness of C2 under SHA-256: block 1 of the chain of two `addBlock` calls is given the
payload `"Breaking things 1011"` and a recomputed hash; validation re-mines it in one
iteration and returns `false`. -/
theorem forged_hash_detected_witness :
    Reachable sha256 chain3 ∧
      Block.mineBlock sha256 3 1 ((firstBlock.setData "Breaking things 1011").rehash sha256) =
        .returns (none, reminedBlock) ∧
      reminedBlock.hash ≠ firstBlock.hash ∧
      BlockChain.isChainValid sha256 1
          { chain3 with
            chain := [genesisBlock, (firstBlock.setData "Breaking things 1011").rehash sha256,
              secondBlock] } =
        .returns (false, { chain3 with chain := [genesisBlock, reminedBlock, secondBlock] }) :=
  ⟨reachable_chain3, rehash_firstBlock ▸ mineBlock_forgedBlock, by decide,
    forged_hash_detected sha256 chain3 genesisBlock firstBlock secondBlock reachable_chain3 rfl
      "Breaking things 1011" 1 none reminedBlock (rehash_firstBlock ▸ mineBlock_forgedBlock)
      (by decide)⟩

/-- Claim C3 (the code does the opposite), under SHA-256: on the chain that one `addBlock`
builds, with the payload of block 1 replaced afterwards, `isChainValid()` returns `true`
although the stored hash of block 1 differs from `calculateHash()` of its stored fields. -/
theorem isChainValid_unsound :
    (BlockChain.new sha256).addBlock sha256 2 (Block.new sha256 1 "02/01/2018" "Block 1722" "") =
        .returns chain2 ∧
      (chain2.setData 1 "Breaking things").isChainValid sha256 0 =
        .returns (true, chain2.setData 1 "Breaking things") ∧
      ∃ b : Block, (chain2.setData 1 "Breaking things").chain[1]? = some b ∧
        b.calculateHash sha256 =
          "eb29cc77ead04f50ab36538bbbd743bc16530421f9d779de442284140151a198" ∧
        b.hash ≠ b.calculateHash sha256 := by
  refine ⟨new_sha256 ▸ addBlock_firstBlock,
    isChainValid_setData sha256 chain2 (reachable_inv sha256 chain2 reachable_chain2) 1
      "Breaking things" 0, firstBlock.setData "Breaking things", rfl, ?_⟩
  have e : (firstBlock.setData "Breaking things").calculateHash sha256 =
      "eb29cc77ead04f50ab36538bbbd743bc16530421f9d779de442284140151a198" := by
    set_option maxRecDepth 100000 in decide
  rw [e]
  exact ⟨rfl, by decide⟩

set_option maxRecDepth 100000 in
/-- Claim C4 (the code does the opposite), under SHA-256: on the chain that two `addBlock`
calls build, with block 1 given another payload and a recomputed hash, `isChainValid()`
re-mines that block: its nonce goes from 2 to 3 and its hash changes. -/
theorem isChainValid_mutates :
    Reachable sha256 chain3 ∧
      forgedChain.chain =
        [genesisBlock, (firstBlock.setData "Breaking things 1011").rehash sha256, secondBlock] ∧
      forgedChain.isChainValid sha256 1 = .returns (false, reminedChain) ∧
      reminedChain ≠ forgedChain ∧
      forgedChain.chain[1]? = some forgedBlock ∧ reminedChain.chain[1]? = some reminedBlock ∧
      forgedBlock.nonce = 2 ∧ reminedBlock.nonce = 3 ∧ reminedBlock.hash ≠ forgedBlock.hash := by
  exact ⟨reachable_chain3, by rw [rehash_firstBlock]; rfl, isChainValid_forgedChain, by decide,
    rfl, rfl, rfl, rfl, by decide⟩

/-- Claim C5: on every chain state the interface can produce (a new chain, then any number of
`addBlock` calls on fresh blocks and `isChainValid` calls, each having returned),
`isChainValid()` returns `true`, whatever the iteration bound, and leaves the chain as it is. -/
theorem isChainValid_reachable (sha : String → String) (c : BlockChain)
    (h : Reachable sha c) (fuel : Nat) : c.isChainValid sha fuel = .returns (true, c) := by
  obtain ⟨_, _, hmined, hlink⟩ := reachable_inv sha c h
  rw [isChainValid_of_mined sha fuel c hmined, hlink]

/-- Witness of C5 under SHA-256: the chain of two `addBlock` calls. -/
theorem isChainValid_reachable_witness :
    Reachable sha256 chain3 ∧ chain3.isChainValid sha256 0 = .returns (true, chain3) :=
  ⟨reachable_chain3, isChainValid_reachable sha256 chain3 reachable_chain3 0⟩

/-- Claim C6: when `mineBlock(d)` returns, the stored hash has at least `d` characters and its
first `d` characters are all `'0'`. -/
theorem mineBlock_postcondition (sha : String → String) (d fuel : Nat) (b mined : Block)
    (r : Option String) (h : Block.mineBlock sha d fuel b = .returns (r, mined)) :
    substring0 mined.hash d = zeros d ∧ d ≤ mined.hash.length ∧
      ∀ i, i < d → mined.hash.data[i]? = some '0' := by
  have hm : substring0 mined.hash d = zeros d := (mineBlock_returns sha d fuel b mined r h).2.1
  have hd : mined.hash.data.take d = List.replicate d '0' := by
    have := congrArg String.data hm
    simpa [substring0, zeros] using this
  have hlen : d ≤ mined.hash.data.length := by
    have := congrArg List.length hd
    simp only [List.length_take, List.length_replicate] at this
    omega
  refine ⟨hm, hlen, ?_⟩
  intro i hi
  have h1 : (mined.hash.data.take d)[i]? = mined.hash.data[i]? := by
    rw [List.getElem?_take, if_pos hi]
  rw [← h1, hd]
  simp [List.getElem?_replicate, hi]

/-- Witness of C6 under SHA-256: re-mining the forged block at difficulty 3. -/
theorem mineBlock_postcondition_witness :
    Block.mineBlock sha256 3 1 forgedBlock = .returns (none, reminedBlock) ∧
      substring0 reminedBlock.hash 3 = zeros 3 ∧ 3 ≤ reminedBlock.hash.length ∧
      ∀ i, i < 3 → reminedBlock.hash.data[i]? = some '0' :=
  ⟨mineBlock_forgedBlock,
    mineBlock_postcondition sha256 3 1 forgedBlock reminedBlock none mineBlock_forgedBlock⟩

set_option maxRecDepth 100000 in
/-- Claim C7 (the code does the opposite), under SHA-256: `addBlock` of the fresh block
`new Block(1, "02/01/2018", "Block 7995")` on a new chain stores it with the digest the
constructor took, which differs from `calculateHash()` of the stored fields. -/
theorem addBlock_stale_hash :
    (BlockChain.new sha256).addBlock sha256 0 (Block.new sha256 1 "02/01/2018" "Block 7995" "") =
        .returns luckyChain ∧
      luckyChain.chain[1]? = some luckyBlock ∧
      luckyBlock.calculateHash sha256 =
        "b793d5393381d4979e1b11ad19a1a804f42801f54bc5e8c2b4306a21c168e086" ∧
      luckyBlock.hash ≠ luckyBlock.calculateHash sha256 := by
  have e : luckyBlock.calculateHash sha256 =
      "b793d5393381d4979e1b11ad19a1a804f42801f54bc5e8c2b4306a21c168e086" := by decide
  refine ⟨?_, rfl, e, ?_⟩
  · rw [new_sha256]; decide
  · rw [e]; decide

set_option maxRecDepth 100000 in
/-- Claim C8 (the code does the opposite): the constructor takes the digest while `nonce` is
still `undefined`, so the digest input of a fresh block is never the input `calculateHash()`
uses afterwards; under SHA-256 the genesis block of a new chain has nonce 0 and a stored
hash different from `calculateHash()`. -/
theorem constructor_stale_hash :
    (∀ (sha : String → String) (index : Nat) (timestamp data previoushash : String),
        (Block.new sha index timestamp data previoushash).nonce = 0 ∧
        (Block.new sha index timestamp data previoushash).hash =
          sha (hashInput index previoushash timestamp data none) ∧
        (Block.new sha index timestamp data previoushash).calculateHash sha =
          sha (hashInput index previoushash timestamp data (some 0)) ∧
        hashInput index previoushash timestamp data none ≠
          hashInput index previoushash timestamp data (some 0)) ∧
      (BlockChain.new sha256).chain = [createGenesisBlock sha256] ∧
      (createGenesisBlock sha256).nonce = 0 ∧
      (createGenesisBlock sha256).hash =
        "5e1b46849ced8db8154cfe07c37df0e09a3abc7851c621d0e0876f012f7a165e" ∧
      (createGenesisBlock sha256).calculateHash sha256 =
        "a99fd976abf695aebfb235bb04669dbfd9dd7581920a4492903a5311bf303ed2" := by
  refine ⟨?_, rfl, rfl, ?_, ?_⟩
  · intro sha index timestamp data previoushash
    refine ⟨rfl, rfl, rfl, ?_⟩
    intro e
    have := congrArg String.length e
    simp [hashInput, nonceString, String.length_append] at this
    revert this
    decide
  · exact congrArg (fun c => (c.chain.headD genesisBlock).hash) new_sha256
  · have e : createGenesisBlock sha256 = genesisBlock := by
      have := congrArg (fun c => c.chain.headD genesisBlock) new_sha256
      simpa [BlockChain.new, genesisChain] using this
    rw [e]; decide

/-- Claim C9: in every chain state the interface can produce, each block at a position
`i + 1` records the hash of the block at position `i`; and `addBlock` stores the new block
with `previoushash` equal to the hash of the block that was last before the call. -/
theorem link_invariant (sha : String → String) (c : BlockChain) (h : Reachable sha c) :
    (∀ (i : Nat) (p q : Block), c.chain[i]? = some p → c.chain[i + 1]? = some q →
        q.previoushash = p.hash) ∧
      ∀ (fuel index : Nat) (timestamp data previoushash : String) (c1 : BlockChain),
        c.addBlock sha fuel (Block.new sha index timestamp data previoushash) = .returns c1 →
        ∃ latest stored : Block, c.getLatestBlock = some latest ∧
          c1.chain = c.chain ++ [stored] ∧ stored.previoushash = latest.hash := by
  obtain ⟨_, hne, _, hlink⟩ := reachable_inv sha c h
  constructor
  · intro i p q hp hq
    obtain ⟨chain, d⟩ := c
    cases chain with
    | nil => exact absurd rfl hne
    | cons first rest => exact linkedFrom_get rest first hlink i p q hp hq
  · intro fuel index timestamp data previoushash c1 hadd
    obtain ⟨hne1, stored, hm, rfl⟩ := addBlock_returns sha fuel c c1 _ hadd
    exact ⟨c.chain.getLast hne1, stored, getLatestBlock_eq c hne1, rfl,
      (mineBlock_returns sha _ _ _ _ _ hm).2.2.2.2.2.1⟩

/-- Witness of C9 under SHA-256: the chain of one `addBlock`, and the second `addBlock`. -/
theorem link_invariant_witness :
    Reachable sha256 chain2 ∧
      (∀ (i : Nat) (p q : Block), chain2.chain[i]? = some p → chain2.chain[i + 1]? = some q →
        q.previoushash = p.hash) ∧
      ∀ (fuel index : Nat) (timestamp data previoushash : String) (c1 : BlockChain),
        chain2.addBlock sha256 fuel (Block.new sha256 index timestamp data previoushash) =
          .returns c1 →
        ∃ latest stored : Block, chain2.getLatestBlock = some latest ∧
          c1.chain = chain2.chain ++ [stored] ∧ stored.previoushash = latest.hash :=
  ⟨reachable_chain2, link_invariant sha256 chain2 reachable_chain2⟩

/-- Claim C10: when `addBlock(b)` returns, the chain is one block longer, the blocks stored
before are unchanged at their positions, the difficulty is unchanged, and the new last block
has the index, timestamp and data of `b`. -/
theorem addBlock_append_only (sha : String → String) (fuel : Nat) (c c1 : BlockChain)
    (b : Block) (h : c.addBlock sha fuel b = .returns c1) :
    c1.chain.length = c.chain.length + 1 ∧
      (∀ i, i < c.chain.length → c1.chain[i]? = c.chain[i]?) ∧
      c1.difficulty = c.difficulty ∧
      ∃ stored : Block, c1.chain = c.chain ++ [stored] ∧
        c1.chain[c.chain.length]? = some stored ∧
        stored.index = b.index ∧ stored.timestamp = b.timestamp ∧ stored.data = b.data := by
  obtain ⟨_, stored, hm, rfl⟩ := addBlock_returns sha fuel c c1 b h
  obtain ⟨-, -, hi, ht, hd, -, -⟩ := mineBlock_returns sha _ _ _ _ _ hm
  refine ⟨by simp, ?_, rfl, stored, rfl, by simp, hi, ht, hd⟩
  intro i hi
  simp [List.getElem?_append_left hi]

/-- Witness of C10 under SHA-256: the second `addBlock` of the two-block chain. -/
theorem addBlock_append_only_witness :
    chain2.addBlock sha256 1 (Block.new sha256 2 "03/01/2018" "Block 2723" "") =
        .returns chain3 ∧
      chain3.chain.length = chain2.chain.length + 1 ∧
      (∀ i, i < chain2.chain.length → chain3.chain[i]? = chain2.chain[i]?) ∧
      chain3.difficulty = chain2.difficulty ∧
      ∃ stored : Block, chain3.chain = chain2.chain ++ [stored] ∧
        chain3.chain[chain2.chain.length]? = some stored ∧
        stored.index = (Block.new sha256 2 "03/01/2018" "Block 2723" "").index ∧
        stored.timestamp = (Block.new sha256 2 "03/01/2018" "Block 2723" "").timestamp ∧
        stored.data = (Block.new sha256 2 "03/01/2018" "Block 2723" "").data :=
  ⟨addBlock_secondBlock,
    addBlock_append_only sha256 1 chain2 chain3 _ addBlock_secondBlock⟩

/-- The genesis anchor on chains of block values: a new chain holds exactly the genesis block,
and in every chain state built from fresh blocks the chain is not empty, its first block is
the genesis block as constructed, and `getLatestBlock()` returns a block. -/
theorem genesis_anchor (sha : String → String) (c : BlockChain) (h : Reachable sha c) :
    (BlockChain.new sha).chain = [createGenesisBlock sha] ∧
      (createGenesisBlock sha).index = 0 ∧
      (createGenesisBlock sha).timestamp = "01/01/2018" ∧
      (createGenesisBlock sha).data = "Genesis" ∧
      (createGenesisBlock sha).previoushash = "0" ∧
      (createGenesisBlock sha).nonce = 0 ∧
      c.chain ≠ [] ∧ c.chain[0]? = some (createGenesisBlock sha) ∧
      ∃ latest : Block, c.getLatestBlock = some latest := by
  have hne : c.chain ≠ [] := (reachable_inv sha c h).2.1
  refine ⟨rfl, rfl, rfl, rfl, rfl, rfl, hne, ?_, c.chain.getLast hne, getLatestBlock_eq c hne⟩
  rw [← List.head?_eq_getElem?]
  exact reachable_head sha c h

/-- The genesis anchor on the chain of two `addBlock` calls, under SHA-256. -/
theorem genesis_anchor_witness :
    Reachable sha256 chain3 ∧ chain3.chain ≠ [] ∧
      chain3.chain[0]? = some (createGenesisBlock sha256) ∧
      ∃ latest : Block, chain3.getLatestBlock = some latest :=
  ⟨reachable_chain3, (genesis_anchor sha256 chain3 reachable_chain3).2.2.2.2.2.2⟩

/-- Claim C11 as stated is false, under SHA-256: after `c = new BlockChain()`,
`c.addBlock(new Block(1, "02/01/2018", "Block 1559746"))` and `c.addBlock(c.chain[0])`, the
object at `chain[0]` has another previoushash, nonce and hash than the genesis block the
constructor stored: `addBlock` relinked and mined it in place. -/
theorem addBlock_rewrites_genesis :
    ((Store.new sha256).newBlock sha256 1 "02/01/2018" "Block 1559746" "").1.addBlock sha256 1
        ((Store.new sha256).newBlock sha256 1 "02/01/2018" "Block 1559746" "").2 =
        .returns store2 ∧
      store2.chain[0]? = some 0 ∧ store2.objects[0]? = some (createGenesisBlock sha256) ∧
      store2.addBlock sha256 2 0 = .returns store3 ∧
      store3.chain[0]? = some 0 ∧ store3.objects[0]? = some reminedGenesis ∧
      reminedGenesis ≠ createGenesisBlock sha256 ∧
      reminedGenesis.previoushash ≠ (createGenesisBlock sha256).previoushash ∧
      reminedGenesis.nonce ≠ (createGenesisBlock sha256).nonce ∧
      reminedGenesis.hash ≠ (createGenesisBlock sha256).hash := by
  refine ⟨store_addBlock_thirdBlock, rfl, ?_, store2_addBlock_genesis, rfl, rfl, ?_, ?_, ?_, ?_⟩
  · rw [createGenesisBlock_sha256]; rfl
  · rw [createGenesisBlock_sha256]; decide
  · rw [createGenesisBlock_sha256]; decide
  · rw [createGenesisBlock_sha256]; decide
  · rw [createGenesisBlock_sha256]; decide

/-- Claim C11 as amended: a new chain holds exactly the genesis object, with index 0,
timestamp `"01/01/2018"`, data `"Genesis"`, previoushash `"0"` and nonce 0; in every state
reached by `addBlock` calls on freshly constructed blocks and by `isChainValid` calls the
chain is not empty, `chain[0]` is that genesis object with every field as constructed, and
`getLatestBlock()` returns a block. -/
theorem genesis_anchor_fresh (sha : String → String) (s : Store)
    (h : Store.Reachable sha s) :
    (Store.new sha).chain = [0] ∧ (Store.new sha).objects = [createGenesisBlock sha] ∧
      (createGenesisBlock sha).index = 0 ∧
      (createGenesisBlock sha).timestamp = "01/01/2018" ∧
      (createGenesisBlock sha).data = "Genesis" ∧
      (createGenesisBlock sha).previoushash = "0" ∧
      (createGenesisBlock sha).nonce = 0 ∧
      s.chain ≠ [] ∧ s.chain[0]? = some 0 ∧ s.objects[0]? = some (createGenesisBlock sha) ∧
      ∃ (latestRef : Nat) (latest : Block),
        s.getLatestBlock = some latestRef ∧ s.objects[latestRef]? = some latest := by
  obtain ⟨h0, ⟨rest, hc, -⟩, hv⟩ := Store.reachable_anchored sha s h
  have hne : s.chain ≠ [] := by rw [hc]; simp
  have hlast : s.getLatestBlock = some (s.chain.getLast hne) := by
    unfold Store.getLatestBlock
    rw [← List.getLast?_eq_getElem?, List.getLast?_eq_getLast _ hne]
  have hlt : s.chain.getLast hne < s.objects.length := hv _ (List.getLast_mem hne)
  refine ⟨rfl, rfl, rfl, rfl, rfl, rfl, rfl, hne, by rw [hc]; simp, h0,
    s.chain.getLast hne, s.objects[s.chain.getLast hne], hlast, ?_⟩
  exact List.getElem?_eq_getElem hlt

/-- Witness of C11 as amended, under SHA-256: the store of one `addBlock` of a fresh block. -/
theorem genesis_anchor_fresh_witness :
    Store.Reachable sha256 store2 ∧ store2.chain ≠ [] ∧ store2.chain[0]? = some 0 ∧
      store2.objects[0]? = some (createGenesisBlock sha256) ∧
      ∃ (latestRef : Nat) (latest : Block),
        store2.getLatestBlock = some latestRef ∧ store2.objects[latestRef]? = some latest :=
  have hr : Store.Reachable sha256 store2 :=
    Store.Reachable.addBlock (Store.new sha256) store2 1 1 "02/01/2018" "Block 1559746" ""
      Store.Reachable.new store_addBlock_thirdBlock
  ⟨hr, (genesis_anchor_fresh sha256 store2 hr).2.2.2.2.2.2.2⟩

/-- Claim C12 (the code does the opposite), under SHA-256: on the chain that one `addBlock`
builds, after `difficulty = 65`, `isChainValid()` returns under no iteration bound: the
search it starts on block 1 never ends, since a digest has 64 characters. -/
theorem isChainValid_diverges :
    Reachable sha256 chain2 ∧ steepChain = { chain2 with difficulty := 65 } ∧
      ∀ fuel, steepChain.isChainValid sha256 fuel = .outOfFuel := by
  refine ⟨reachable_chain2, rfl, ?_⟩
  intro fuel
  have h := mineBlock_sha256_diverges 65 (by decide) fuel firstBlock (by decide)
  simp [BlockChain.isChainValid, steepChain, validateFrom, h]

/-- Claim C13 (the code does the opposite), under SHA-256: on the chain of one `addBlock`,
after `c.chain.push(c.chain[0])` and `c.chain[0].previoushash = c.chain[1].hash`, the first
`isChainValid()` re-mines the genesis object at position 2, which is also the object at
position 0, and returns `true`; the second call returns `false`, under every iteration
bound. -/
theorem isChainValid_unstable :
    ((Store.new sha256).newBlock sha256 1 "02/01/2018" "Block 1559746" "").1.addBlock sha256 1
        ((Store.new sha256).newBlock sha256 1 "02/01/2018" "Block 1559746" "").2 =
        .returns store2 ∧
      aliasedStore =
        { store2 with
          objects := store2.objects.set 0 { genesisBlock with previoushash := thirdBlock.hash }
          chain := store2.chain ++ [0] } ∧
      aliasedStore.isChainValid sha256 2 = .returns (true, store3) ∧
      store3 ≠ aliasedStore ∧
      ∀ fuel, store3.isChainValid sha256 fuel = .returns (false, store3) :=
  ⟨store_addBlock_thirdBlock, rfl, aliasedStore_isChainValid, by decide, store3_isChainValid⟩

/-- On chains of block values, where no object stands at two positions: when `isChainValid()`
returns, a second call on the chain it left returns the same boolean, whatever the iteration
bound, and changes nothing. -/
theorem isChainValid_stable (sha : String → String) (fuel : Nat) (c c1 : BlockChain) (r : Bool)
    (h : c.isChainValid sha fuel = .returns (r, c1)) (fuel2 : Nat) :
    c1.isChainValid sha fuel2 = .returns (r, c1) := by
  obtain ⟨chain, d⟩ := c
  cases chain with
  | nil =>
    simp only [BlockChain.isChainValid, Outcome.returns.injEq, Prod.mk.injEq] at h
    obtain ⟨rfl, rfl⟩ := h
    rfl
  | cons first rest =>
    simp only [BlockChain.isChainValid] at h
    split at h
    · next r2 rest2 hv =>
      simp only [Outcome.returns.injEq, Prod.mk.injEq] at h
      obtain ⟨rfl, rfl⟩ := h
      simp [BlockChain.isChainValid, validateFrom_stable sha d fuel rest first r2 rest2 hv fuel2]
    · simp at h
    · simp at h

/-- The forged chain of block values under SHA-256: the first call re-mines block 1 and
returns `false`; the second call returns `false` again and changes nothing. -/
theorem isChainValid_stable_witness :
    forgedChain.isChainValid sha256 1 = .returns (false, reminedChain) ∧
      reminedChain.isChainValid sha256 0 = .returns (false, reminedChain) :=
  ⟨isChainValid_forgedChain,
    isChainValid_stable sha256 1 forgedChain reminedChain false isChainValid_forgedChain 0⟩

/-- Claim C14: when `mineBlock(d)` returns, the value returned is `undefined`, the index,
timestamp, data and previoushash of the block are as before, and its nonce is not smaller. -/
theorem mineBlock_frame (sha : String → String) (d fuel : Nat) (b mined : Block)
    (r : Option String) (h : Block.mineBlock sha d fuel b = .returns (r, mined)) :
    r = none ∧ mined.index = b.index ∧ mined.timestamp = b.timestamp ∧ mined.data = b.data ∧
      mined.previoushash = b.previoushash ∧ b.nonce ≤ mined.nonce := by
  obtain ⟨h1, -, h3, h4, h5, h6, h7⟩ := mineBlock_returns sha d fuel b mined r h
  exact ⟨h1, h3, h4, h5, h6, h7⟩

/-- Witness of C14 under SHA-256: re-mining the forged block at difficulty 3. -/
theorem mineBlock_frame_witness :
    Block.mineBlock sha256 3 1 forgedBlock = .returns (none, reminedBlock) ∧
      reminedBlock.index = forgedBlock.index ∧ reminedBlock.timestamp = forgedBlock.timestamp ∧
      reminedBlock.data = forgedBlock.data ∧
      reminedBlock.previoushash = forgedBlock.previoushash ∧
      forgedBlock.nonce ≤ reminedBlock.nonce :=
  ⟨mineBlock_forgedBlock,
    (mineBlock_frame sha256 3 1 forgedBlock reminedBlock none mineBlock_forgedBlock).2⟩

/-- Claim C15: `mineBlock(0)` returns on every block without one iteration of its loop (it
returns under the iteration bound 0, and under every other bound), leaving the block, its
nonce and hash included, as it was. -/
theorem mineBlock_zero (sha : String → String) (b : Block) :
    Block.mineBlock sha 0 0 b = .returns (none, b) ∧
      ∀ fuel, Block.mineBlock sha 0 fuel b = .returns (none, b) := by
  have hm : b.Mined 0 := by simp [Block.Mined, substring0, zeros]
  exact ⟨mineBlock_of_mined sha 0 0 b hm, fun fuel => mineBlock_of_mined sha 0 fuel b hm⟩

/-- The digest of a block of the string model, on blocks that agree on index, previoushash,
timestamp, data and nonce. -/
theorem calculateHash_congr (sha : String → String) (b b2 : Block)
    (hi : b2.index = b.index) (hp : b2.previoushash = b.previoushash)
    (ht : b2.timestamp = b.timestamp) (hd : b2.data = b.data) (hn : b2.nonce = b.nonce) :
    b2.calculateHash sha = b.calculateHash sha := by
  simp only [Block.calculateHash, hi, hp, ht, hd, hn]

/-- The string model of `calculateHash()` is the general one on string payloads. -/
theorem calculateHash_toPayloadBlock (sha : String → String) (b : Block) :
    PayloadBlock.calculateHash sha serializeString b.toPayloadBlock =
      (b.calculateHash sha, b.toPayloadBlock) := rfl

set_option maxRecDepth 100000 in
/-- Claim C16 as stated is false, under SHA-256: on the block
`new Block(1, "02/01/2018", { n: 0, toJSON() { return this.n++ } })`, `calculateHash()` changes
the payload of the block, and a second call on the block, which nothing else touched,
returns another digest. -/
theorem calculateHash_changes_payload :
    (PayloadBlock.calculateHash sha256 serializeCounter counterBlock).2.data ≠
        counterBlock.data ∧
      (PayloadBlock.calculateHash sha256 serializeCounter counterBlock).1 =
        "8753aeb604820256cac2c114548f8aed4be6d95b318d5bbff4d1a5df1d33699f" ∧
      (PayloadBlock.calculateHash sha256 serializeCounter
          (PayloadBlock.calculateHash sha256 serializeCounter counterBlock).2).1 =
        "c5cd0da81adf0b5f4a4327a43b70bccde854811880fafd08fac7fe48f7aa220b" ∧
      (PayloadBlock.calculateHash sha256 serializeCounter
          (PayloadBlock.calculateHash sha256 serializeCounter counterBlock).2).1 ≠
        (PayloadBlock.calculateHash sha256 serializeCounter counterBlock).1 := by
  have e1 : (PayloadBlock.calculateHash sha256 serializeCounter counterBlock).1 =
      "8753aeb604820256cac2c114548f8aed4be6d95b318d5bbff4d1a5df1d33699f" := by decide
  have e2 : (PayloadBlock.calculateHash sha256 serializeCounter
      (PayloadBlock.calculateHash sha256 serializeCounter counterBlock).2).1 =
      "c5cd0da81adf0b5f4a4327a43b70bccde854811880fafd08fac7fe48f7aa220b" := by decide
  refine ⟨by decide, e1, e2, ?_⟩
  rw [e1, e2]
  decide

/-- Claim C16 as amended: on a block whose payload `JSON.stringify` serializes without
changing it (a string, for one), `calculateHash()` leaves the block as it was, a second call
returns the same digest, the digest is the hash of the text made of index, previoushash,
timestamp, serialized data and nonce, and a block that agrees on these five fields has the
same digest, whatever its stored hash is. -/
theorem calculateHash_deterministic {δ : Type} (sha : String → String)
    (serialize : δ → String × δ) (b b2 : PayloadBlock δ)
    (hpure : (serialize b.data).2 = b.data)
    (hi : b2.index = b.index) (hp : b2.previoushash = b.previoushash)
    (ht : b2.timestamp = b.timestamp) (hd : b2.data = b.data) (hn : b2.nonce = b.nonce) :
    (PayloadBlock.calculateHash sha serialize b).2 = b ∧
      (PayloadBlock.calculateHash sha serialize
          (PayloadBlock.calculateHash sha serialize b).2).1 =
        (PayloadBlock.calculateHash sha serialize b).1 ∧
      (PayloadBlock.calculateHash sha serialize b).1 =
        sha (toString b.index ++ b.previoushash ++ b.timestamp ++ (serialize b.data).1 ++
          toString b.nonce) ∧
      (PayloadBlock.calculateHash sha serialize b2).1 =
        (PayloadBlock.calculateHash sha serialize b).1 := by
  have h1 : (PayloadBlock.calculateHash sha serialize b).2 = b := by
    cases b
    simp only [PayloadBlock.calculateHash] at hpure ⊢
    simp [hpure]
  refine ⟨h1, by rw [h1], rfl, ?_⟩
  simp only [PayloadBlock.calculateHash, hi, hp, ht, hd, hn]

/-- Witness of C16 as amended, under SHA-256: a block with a string payload and the same
block with another stored hash. -/
theorem calculateHash_deterministic_witness :
    (serializeString firstBlock.toPayloadBlock.data).2 = firstBlock.toPayloadBlock.data ∧
      ({ firstBlock with hash := "0" } : Block).toPayloadBlock.hash ≠
        firstBlock.toPayloadBlock.hash ∧
      (PayloadBlock.calculateHash sha256 serializeString firstBlock.toPayloadBlock).2 =
        firstBlock.toPayloadBlock ∧
      (PayloadBlock.calculateHash sha256 serializeString
          (PayloadBlock.calculateHash sha256 serializeString firstBlock.toPayloadBlock).2).1 =
        (PayloadBlock.calculateHash sha256 serializeString firstBlock.toPayloadBlock).1 ∧
      (PayloadBlock.calculateHash sha256 serializeString firstBlock.toPayloadBlock).1 =
        sha256 (toString firstBlock.toPayloadBlock.index ++
          firstBlock.toPayloadBlock.previoushash ++ firstBlock.toPayloadBlock.timestamp ++
          (serializeString firstBlock.toPayloadBlock.data).1 ++
          toString firstBlock.toPayloadBlock.nonce) ∧
      (PayloadBlock.calculateHash sha256 serializeString
          ({ firstBlock with hash := "0" } : Block).toPayloadBlock).1 =
        (PayloadBlock.calculateHash sha256 serializeString firstBlock.toPayloadBlock).1 :=
  ⟨rfl, by decide,
    calculateHash_deterministic sha256 serializeString firstBlock.toPayloadBlock
      ({ firstBlock with hash := "0" } : Block).toPayloadBlock rfl rfl rfl rfl rfl rfl⟩

set_option maxRecDepth 100000 in
/-- Claim C17 as stated is false, under SHA-256: the block
`new Block(1, "02/01/2018", "Block 7033")` with its nonce set to `2 ^ 53` has a hash that does
not begin with three zeros, yet `mineBlock(3)` returns with the nonce it had at entry:
`this.nonce++` leaves `2 ^ 53` as it is, and the digest at that nonce begins with `000`. -/
theorem mineBlock_nonce_stuck :
    stuckBlock =
        { Block.new sha256 1 "02/01/2018" "Block 7033" "" with nonce := 9007199254740992 } ∧
      ¬ stuckBlock.Mined 3 ∧
      Block.mineBlock sha256 3 1 stuckBlock = .returns (none, stuckMined) ∧
      stuckMined.nonce = stuckBlock.nonce ∧ ¬ stuckBlock.nonce < stuckMined.nonce := by
  refine ⟨by decide, by decide, mineBlock_stuckBlock, rfl, by decide⟩

/-- Claim C17 as amended: for a block whose nonce at entry is below `2 ^ 53`, when
`mineBlock(d)` returns, either the hash stored at entry already began with `d` zeros and
nonce and hash are as before, or the final nonce is the least `n` above the entry nonce whose
digest of (index, previoushash, timestamp, data, `n`) begins with `d` zeros, and the final
hash is that digest. -/
theorem mineBlock_first_solution (sha : String → String) (d fuel : Nat) (b mined : Block)
    (r : Option String) (h : Block.mineBlock sha d fuel b = .returns (r, mined))
    (hb : b.nonce < 9007199254740992) :
    (b.Mined d → mined.nonce = b.nonce ∧ mined.hash = b.hash) ∧
      (¬ b.Mined d →
        b.nonce < mined.nonce ∧
        mined.hash =
          sha (hashInput b.index b.previoushash b.timestamp b.data (some mined.nonce)) ∧
        substring0 mined.hash d = zeros d ∧
        ∀ n, b.nonce < n → n < mined.nonce →
          substring0 (sha (hashInput b.index b.previoushash b.timestamp b.data (some n))) d ≠
            zeros d) := by
  constructor
  · intro hm
    rw [mineBlock_of_mined sha d fuel b hm] at h
    simp only [Outcome.returns.injEq, Prod.mk.injEq] at h
    rw [← h.2]
    exact ⟨rfl, rfl⟩
  · intro hn
    exact mineBlock_search sha d fuel b r mined h hn hb

/-- Witness of C17 as amended, under SHA-256: the forged block, whose hash does not begin
with three zeros, is re-mined to the next nonce. -/
theorem mineBlock_first_solution_witness :
    Block.mineBlock sha256 3 1 forgedBlock = .returns (none, reminedBlock) ∧
      forgedBlock.nonce < 9007199254740992 ∧
      ¬ forgedBlock.Mined 3 ∧ forgedBlock.nonce < reminedBlock.nonce ∧
      reminedBlock.hash =
        sha256 (hashInput forgedBlock.index forgedBlock.previoushash forgedBlock.timestamp
          forgedBlock.data (some reminedBlock.nonce)) ∧
      substring0 reminedBlock.hash 3 = zeros 3 ∧
      ∀ n, forgedBlock.nonce < n → n < reminedBlock.nonce →
        substring0 (sha256 (hashInput forgedBlock.index forgedBlock.previoushash
          forgedBlock.timestamp forgedBlock.data (some n))) 3 ≠ zeros 3 :=
  ⟨mineBlock_forgedBlock, by decide, by decide,
    (mineBlock_first_solution sha256 3 1 forgedBlock reminedBlock none mineBlock_forgedBlock
      (by decide)).2 (by decide)⟩

/-- Claim C18: on a chain whose blocks at positions 1 and above all have a stored hash
beginning with `difficulty` zeros, `isChainValid()` changes nothing and returns `true`
exactly when every block after the first records the hash of the block before it; a chain
with the same difficulty and the same hash and previoushash values gets the same answer,
whatever its indices, timestamps, data and nonces are. -/
theorem isChainValid_link_only (sha : String → String) (fuel : Nat) (c : BlockChain)
    (h : ∀ (i : Nat) (b : Block), 1 ≤ i → c.chain[i]? = some b → b.Mined c.difficulty) :
    ∃ r : Bool, c.isChainValid sha fuel = .returns (r, c) ∧
      (r = true ↔
        ∀ (i : Nat) (p q : Block), c.chain[i]? = some p → c.chain[i + 1]? = some q →
          q.previoushash = p.hash) ∧
      ∀ c2 : BlockChain, c2.difficulty = c.difficulty →
        c2.chain.map Block.hash = c.chain.map Block.hash →
        c2.chain.map Block.previoushash = c.chain.map Block.previoushash →
        c2.isChainValid sha fuel = .returns (r, c2) := by
  have hm := mined_tail_of_get c.difficulty c.chain h
  refine ⟨linked c.chain, isChainValid_of_mined sha fuel c hm, linked_iff c.chain, ?_⟩
  intro c2 hd h1 h2
  have hm2 : ∀ b ∈ c2.chain.tail, b.Mined c2.difficulty := by
    rw [hd]
    exact mined_map_congr c.difficulty c.chain c2.chain h1.symm hm
  rw [isChainValid_of_mined sha fuel c2 hm2, linked_map_congr c2.chain c.chain h1 h2]

/-- Witness of C18 under SHA-256: the chain of two `addBlock` calls. -/
theorem isChainValid_link_only_witness :
    (∀ (i : Nat) (b : Block), 1 ≤ i → chain3.chain[i]? = some b → b.Mined chain3.difficulty) ∧
      ∃ r : Bool, chain3.isChainValid sha256 0 = .returns (r, chain3) ∧
        (r = true ↔
          ∀ (i : Nat) (p q : Block), chain3.chain[i]? = some p →
            chain3.chain[i + 1]? = some q → q.previoushash = p.hash) ∧
        ∀ c2 : BlockChain, c2.difficulty = chain3.difficulty →
          c2.chain.map Block.hash = chain3.chain.map Block.hash →
          c2.chain.map Block.previoushash = chain3.chain.map Block.previoushash →
          c2.isChainValid sha256 0 = .returns (r, c2) :=
  have hm : ∀ (i : Nat) (b : Block), 1 ≤ i → chain3.chain[i]? = some b →
      b.Mined chain3.difficulty := by
    intro i b hi hb
    match i, hi, hb with
    | 1, _, hb =>
      have e : firstBlock = b := by simpa [chain3] using hb
      rw [← e]; decide
    | 2, _, hb =>
      have e : secondBlock = b := by simpa [chain3] using hb
      rw [← e]; decide
    | i + 3, _, hb => simp [chain3] at hb
  ⟨hm, isChainValid_link_only sha256 0 chain3 hm⟩

/-- Claim C19: the block with index 1 and previoushash `"23"` and the block with index 12
and previoushash `"3"`, with the same timestamp, data and nonce, differ, yet
`calculateHash()` hands the same text to the hash function for both, so the digests are
equal for every hash function. -/
theorem calculateHash_ambiguous (sha : String → String) (timestamp data hash : String)
    (nonce : Nat) :
    ({ index := 1, timestamp := timestamp, data := data, previoushash := "23", hash := hash,
        nonce := nonce } : Block) ≠
      { index := 12, timestamp := timestamp, data := data, previoushash := "3", hash := hash,
        nonce := nonce } ∧
    hashInput 1 "23" timestamp data (some nonce) = hashInput 12 "3" timestamp data (some nonce) ∧
    Block.calculateHash sha
        { index := 1, timestamp := timestamp, data := data, previoushash := "23", hash := hash,
          nonce := nonce } =
      Block.calculateHash sha
        { index := 12, timestamp := timestamp, data := data, previoushash := "3", hash := hash,
          nonce := nonce } := by
  have e : (toString (1 : Nat) ++ "23" : String) = toString (12 : Nat) ++ "3" := by decide
  have e2 : hashInput 1 "23" timestamp data (some nonce) =
      hashInput 12 "3" timestamp data (some nonce) := by
    unfold hashInput
    rw [e]
  refine ⟨?_, e2, ?_⟩
  · intro hb
    have := congrArg Block.index hb
    simp at this
  · simp only [Block.calculateHash, e2]

end SimpleBlockChain
